import Mathlib

/-!
Elechka: the layered configuration resolver `env_loader` (src/include/dotenv.h)

A shallow embedding of the class `env_loader` and proofs about its lookup
and ingestion behaviour.

Modelling conventions.
* `std::string` is `Str := List Char`.
* `std::string::npos` results of the `find*` family are `none`; positions are `Nat`.
* `substr` is fallible (`std::out_of_range` when the start position exceeds the
  length), so every function that calls it returns `Option`; `none` is the throw.
* `std::map<std::string, std::vector<env_entry>>` is an association list that is
  only ever read through `Store.find` and written through `Store.push_back`
  (the embedding of `env_storage[key].push_back(e)`).
* The host environment (`std::getenv` / `_dupenv_s`) and the file system
  (`std::ifstream`) are inputs: `SysEnv` and `FileSystem`.
* The argument vector is `argc : Int` with `argv : Option (List Str)` (`none` is
  `nullptr`); the loop of `load_cli_arguments` visits the elements of index
  `1 .. argc - 1` that exist.
* `get_executable_path()` is an input of `get_executable_dir`.

Layout: the embedding of the source, then the specification-side definitions
(`spec_trim`, `spec_unquote`) and bookkeeping definitions, then the lemmas that
characterise each function, then the properties.
-/

namespace env_loader

/-- The embedding of `std::string`. -/
abbrev Str := List Char

/-- The double quote character. -/
def dquote : Char := Char.ofNat 34

/-- The single quote character. -/
def squote : Char := Char.ofNat 39

/-- The enum `variable_source`. -/
inductive variable_source where
  | any
  | cli_args
  | env_file
  | system_env
deriving DecidableEq, Repr

/-- The struct `env_entry`. -/
structure env_entry where
  value : Str
  source : variable_source
deriving DecidableEq, Repr

/-- The member `env_storage`: a map from key to the vector of its entries. -/
abbrev Store := List (Str × List env_entry)

/-- What the platform accessor answers for a name (`none`: variable not set). -/
abbrev SysEnv := Str → Option Str

/-- What opening a path gives: `none` when the stream fails to open, else the bytes. -/
abbrev FileSystem := Str → Option Str

/-- The lookup `env_storage.find(name)`; `none` is `end()`. -/
def Store.find : Store → Str → Option (List env_entry)
  | [], _ => none
  | (k, es) :: rest, name => if k = name then some es else Store.find rest name

/-- The update `env_storage[key].push_back(e)`: creates the key when absent. -/
def Store.push_back : Store → Str → env_entry → Store
  | [], key, e => [(key, [e])]
  | (k, es) :: rest, key, e =>
    if k = key then (k, es ++ [e]) :: rest else (k, es) :: Store.push_back rest key e

/-- The character set `" \t\r\n"` used by `clean_whitespace`. -/
def whitespace : Str := [' ', '\t', '\r', '\n']

/-- The call `text.find_first_not_of(set)`. -/
def find_first_not_of : Str → Str → Option Nat
  | [], _ => none
  | c :: cs, set =>
    if c ∈ set then (find_first_not_of cs set).map (· + 1) else some 0

/-- The call `text.find_last_not_of(set)`. -/
def find_last_not_of : Str → Str → Option Nat
  | [], _ => none
  | c :: cs, set =>
    match find_last_not_of cs set with
    | some i => some (i + 1)
    | none => if c ∈ set then none else some 0

/-- The call `text.find(ch)`. -/
def find : Str → Char → Option Nat
  | [], _ => none
  | c :: cs, ch => if c = ch then some 0 else (find cs ch).map (· + 1)

/-- The call `text.find_last_of(set)`. -/
def find_last_of : Str → Str → Option Nat
  | [], _ => none
  | c :: cs, set =>
    match find_last_of cs set with
    | some i => some (i + 1)
    | none => if c ∈ set then some 0 else none

/-- The call `s.substr(pos, count)`; `none` is `std::out_of_range`. -/
def substr (s : Str) (pos count : Nat) : Option Str :=
  if pos > s.length then none else some ((s.drop pos).take count)

/-- The call `s.substr(pos)` (count defaulted to `npos`: up to the end). -/
def substr_from (s : Str) (pos : Nat) : Option Str :=
  if pos > s.length then none else some (s.drop pos)

/-- The value of `npos` as a 64-bit `size_t`. -/
def npos : Nat := 2 ^ 64 - 1

/-- The function `clean_whitespace`. When `end` is `npos` the count
`end - start + 1` is the wrapped 64-bit value. -/
def clean_whitespace (text : Str) : Option Str :=
  match find_first_not_of text whitespace with
  | none => some []
  | some start =>
    match find_last_not_of text whitespace with
    | some e => substr text start (e - start + 1)
    | none => substr text start ((npos - start + 1) % 2 ^ 64)

/-- The function `remove_quotes`. -/
def remove_quotes (text : Str) : Option Str :=
  (clean_whitespace text).bind fun cleaned =>
    if cleaned.length ≥ 2 then
      if (cleaned.head? = some dquote ∧ cleaned.getLast? = some dquote) ∨
         (cleaned.head? = some squote ∧ cleaned.getLast? = some squote) then
        substr cleaned 1 (cleaned.length - 2)
      else some cleaned
    else some cleaned

/-- The method `process_env_line`, as a function on the store. -/
def process_env_line (st : Store) (line : Str) (src : variable_source) : Option Store :=
  if line = [] ∨ line.head? = some '#' then some st
  else
    match find line '=' with
    | none =>
      (clean_whitespace line).bind fun key =>
        if key ≠ [] then some (st.push_back key ⟨[], src⟩) else some st
    | some equals_pos =>
      (substr line 0 equals_pos).bind fun before =>
      (clean_whitespace before).bind fun key =>
      (substr_from line (equals_pos + 1)).bind fun raw_value =>
      (remove_quotes raw_value).bind fun value =>
        if key ≠ [] then some (st.push_back key ⟨value, src⟩) else some st

/-- The body of the loop of `load_cli_arguments` for one argument. -/
def load_cli_argument (st : Store) (arg : Str) : Option Store :=
  (substr arg 0 2).bind fun head =>
    if head = ['-', '-'] then
      (substr_from arg 2).bind fun rest => process_env_line st rest .cli_args
    else some st

/-- The loop of `load_cli_arguments` over the arguments it visits. -/
def load_cli_arguments_loop : Store → List Str → Option Store
  | st, [] => some st
  | st, arg :: rest => (load_cli_argument st arg).bind fun st1 => load_cli_arguments_loop st1 rest

/-- The elements `argv[1], ..., argv[argc - 1]` visited by `load_cli_arguments`. -/
def visited_arguments (argc : Int) (argv : List Str) : List Str :=
  (argv.take argc.toNat).drop 1

/-- The method `load_cli_arguments`. -/
def load_cli_arguments (st : Store) (argc : Int) (argv : List Str) : Option Store :=
  load_cli_arguments_loop st (visited_arguments argc argv)

/-- The lines `std::getline` yields, given the line read so far. A final line
without a newline is yielded only when at least one character was extracted. -/
def getlines_from : Str → Str → List Str
  | [], cur => if cur = [] then [] else [cur]
  | c :: cs, cur => if c = '\n' then cur :: getlines_from cs [] else getlines_from cs (cur ++ [c])

/-- The successive results of `std::getline(file, line)` on a stream. -/
def getlines (contents : Str) : List Str := getlines_from contents []

/-- The loop of `load_env_file` over the lines read. -/
def load_env_lines : Store → List Str → Option Store
  | st, [] => some st
  | st, line :: rest =>
    (process_env_line st line .env_file).bind fun st1 => load_env_lines st1 rest

/-- The method `load_env_file`. -/
def load_env_file (fs : FileSystem) (st : Store) (file_path : Str) : Option Store :=
  match fs file_path with
  | none => some st
  | some contents => load_env_lines st (getlines contents)

/-- The function `get_system_env`: `some value` when it returns true. The platform
accessor applied to `name.c_str()` is the input `env`. -/
def get_system_env (env : SysEnv) (name : Str) : Option Str := env name

/-- The loop over `env_paths` in the constructor. -/
def load_env_paths (fs : FileSystem) : Store → List Str → Option Store
  | st, [] => some st
  | st, path :: rest =>
    if path ≠ [] then
      (load_env_file fs st path).bind fun st1 => load_env_paths fs st1 rest
    else load_env_paths fs st rest

/-- The constructor `env_loader(argc, argv, env_paths)`; `argv = none` is `nullptr`.
The result is the member `env_storage`. -/
def construct (fs : FileSystem) (argc : Int) (argv : Option (List Str))
    (env_paths : List Str) : Option Store :=
  let afterArgs : Option Store :=
    match argv with
    | some args => if argc > 0 then load_cli_arguments [] argc args else some []
    | none => some []
  afterArgs.bind fun st => load_env_paths fs st env_paths

/-- The loop `for (entry : entries) if (entry.source == src) return entry.value`. -/
def first_value : List env_entry → variable_source → Option Str
  | [], _ => none
  | e :: es, src => if e.source = src then some e.value else first_value es src

/-- The loop `for (entry : entries) if (entry.source == src) return true`. -/
def has_source : List env_entry → variable_source → Bool
  | [], _ => false
  | e :: es, src => if e.source = src then true else has_source es src

/-- The method `has_variable`. -/
def has_variable (st : Store) (env : SysEnv) (name : Str) (src : variable_source) : Bool :=
  let inStore : Bool :=
    match st.find name with
    | some entries => if src = .any then true else has_source entries src
    | none => false
  if inStore then true
  else if src = .any ∨ src = .system_env then (get_system_env env name).isSome
  else false

/-- The part of `get_value` that searches the store; `none` when it falls through. -/
def get_stored (st : Store) (name : Str) (src : variable_source) : Option Str :=
  match st.find name with
  | some entries =>
    if src = .any then
      match first_value entries .cli_args with
      | some v => some v
      | none => first_value entries .env_file
    else first_value entries src
  | none => none

/-- The method `get_value`. -/
def get_value (st : Store) (env : SysEnv) (name : Str) (default_value : Str)
    (src : variable_source) : Option Str :=
  match get_stored st name src with
  | some v => some v
  | none =>
    if src = .any ∨ src = .system_env then
      match get_system_env env name with
      | some sys_value => remove_quotes sys_value
      | none => some default_value
    else some default_value

/-- The value of `get_executable_dir` when `get_executable_path()` is `exe_path`. -/
def get_executable_dir (exe_path : Str) (relative_path : Str) : Option Str :=
  match find_last_of exe_path ['/', '\\'] with
  | none => some relative_path
  | some last_sep => (substr exe_path 0 (last_sep + 1)).map (· ++ relative_path)

/-- The function `get_current_dir`. -/
def get_current_dir (relative_path : Str) : Str := relative_path

/-- The default argument of the constructor for `env_paths`:
`{ get_current_dir(".env"), get_executable_dir(".env") }`. -/
def default_env_paths (exe_path : Str) : Option (List Str) :=
  (get_executable_dir exe_path ".env".toList).map fun exe_env =>
    [get_current_dir ".env".toList, exe_env]

/-- The constructor called with `env_paths` omitted, so that the default applies. -/
def construct_default (fs : FileSystem) (exe_path : Str) (argc : Int)
    (argv : Option (List Str)) : Option Store :=
  (default_env_paths exe_path).bind fun env_paths => construct fs argc argv env_paths

/-! ## Specification-side and bookkeeping definitions -/

/-- Whether a character is one of space, tab, CR, LF. -/
def is_space (c : Char) : Bool := decide (c ∈ whitespace)

/-- Trimming as the specification words it: leading and trailing whitespace
(space, tab, CR, LF) removed. -/
def spec_trim (s : Str) : Str := (s.dropWhile is_space).rdropWhile is_space

/-- Quote stripping as the specification words it: when the text has length at
least 2 and begins and ends with the same quote character, one layer is removed. -/
def spec_unquote (t : Str) : Str :=
  if 2 ≤ t.length ∧
      ((t.head? = some dquote ∧ t.getLast? = some dquote) ∨
       (t.head? = some squote ∧ t.getLast? = some squote)) then
    (t.drop 1).dropLast
  else t

/-- The key and value a line records, if any: the outcome of `process_env_line`
read off as a pure function of the line (see `process_env_line_eq`). -/
def recorded_entry (line : Str) : Option (Str × Str) :=
  if line = [] ∨ line.head? = some '#' then none
  else
    match find line '=' with
    | none => if spec_trim line ≠ [] then some (spec_trim line, []) else none
    | some p =>
      if spec_trim (line.take p) ≠ [] then
        some (spec_trim (line.take p), spec_unquote (spec_trim (line.drop (p + 1))))
      else none

/-- The key and value a command-line argument records, if any
(see `load_cli_argument_eq`). -/
def flag_entry (arg : Str) : Option (Str × Str) :=
  if arg.take 2 = ['-', '-'] then recorded_entry (arg.drop 2) else none

/-- Appending an optional recorded pair under a source tag. -/
def Store.record (st : Store) (r : Option (Str × Str)) (src : variable_source) : Store :=
  match r with
  | none => st
  | some (k, v) => st.push_back k ⟨v, src⟩

/-- The entries stored for a key, empty when the key is absent. -/
def Store.entries (st : Store) (name : Str) : List env_entry := (st.find name).getD []

/-- Appending a list of keyed entries in order. -/
def Store.push_all : Store → List (Str × env_entry) → Store
  | st, [] => st
  | st, i :: rest => Store.push_all (st.push_back i.1 i.2) rest

/-- A recorded pair as a keyed entry under a source tag. -/
def tagged (src : variable_source) (r : Str × Str) : Str × env_entry := (r.1, ⟨r.2, src⟩)

/-- The keyed entries a list of visited arguments records, in order. -/
def cli_items (args : List Str) : List (Str × env_entry) :=
  args.filterMap fun a => (flag_entry a).map (tagged .cli_args)

/-- The keyed entries a list of file lines records, in order. -/
def line_items (lines : List Str) : List (Str × env_entry) :=
  lines.filterMap fun l => (recorded_entry l).map (tagged .env_file)

/-- The keyed entries one path contributes. -/
def file_items (fs : FileSystem) (file_path : Str) : List (Str × env_entry) :=
  match fs file_path with
  | none => []
  | some contents => line_items (getlines contents)

/-- The keyed entries a list of paths contributes, in order. -/
def path_items (fs : FileSystem) : List Str → List (Str × env_entry)
  | [] => []
  | path :: rest =>
    if path ≠ [] then file_items fs path ++ path_items fs rest else path_items fs rest

/-- The keyed entries the argument stage of the constructor contributes. -/
def arg_items (argc : Int) (argv : Option (List Str)) : List (Str × env_entry) :=
  match argv with
  | some args => if argc > 0 then cli_items (visited_arguments argc args) else []
  | none => []

/-- The entries among keyed entries that belong to one key, in order. -/
def keyed (items : List (Str × env_entry)) (name : Str) : List env_entry :=
  (items.filter fun i => i.1 = name).map fun i => i.2

/-- The values a single argument, ingested alone from the empty store, records
under a key (none or one). -/
def values_of_flag (arg name : Str) : List Str :=
  match load_cli_argument [] arg with
  | some st => (st.entries name).map fun e => e.value
  | none => []

/-- The values the arguments record under a key, in argument order. -/
def values_of_flags : List Str → Str → List Str
  | [], _ => []
  | a :: rest, name => values_of_flag a name ++ values_of_flags rest name

/-- The key part of a line as the specification words it: the text before the
first `=`, or the whole line when it holds no `=`. -/
def spec_key_part (line : Str) : Str := line.takeWhile fun c => c ≠ '='

/-- The lines the argument stage parses, as the specification words it: of the
given arguments, those that begin with `--`, each without its first two characters. -/
def spec_flag_remainders (args : List Str) : List Str :=
  (args.filter fun a => List.isPrefixOf ['-', '-'] a).map fun a => a.drop 2

/-- Whether every entry of a sequence is tagged `cli_args` or `env_file`. -/
def entries_tagged (es : List env_entry) : Bool :=
  es.all fun e => decide (e.source = .cli_args ∨ e.source = .env_file)

/-- The store invariant: every key maps to a non-empty sequence of entries, each
tagged `cli_args` or `env_file`. -/
def Store.well_formed (st : Store) : Bool :=
  st.all fun kv => !kv.2.isEmpty && entries_tagged kv.2

/-! ## String helpers -/

theorem rdropWhile_cons_eq (p : Char → Bool) (c : Char) (cs : Str) :
    (c :: cs).rdropWhile p =
      if cs.rdropWhile p = [] then (if p c then [] else [c]) else c :: cs.rdropWhile p := by
  induction cs using List.reverseRecOn with
  | nil => simp [List.rdropWhile_singleton]
  | append_singleton l x ih =>
    rw [← List.cons_append, List.rdropWhile_concat, List.rdropWhile_concat]
    by_cases hx : p x
    · simp only [hx, if_true]; exact ih
    · simp [hx]

theorem find_first_not_of_none (t : Str) :
    find_first_not_of t whitespace = none ↔ ∀ c ∈ t, c ∈ whitespace := by
  induction t with
  | nil => simp [find_first_not_of]
  | cons c cs ih =>
    by_cases hc : c ∈ whitespace
    · simp [find_first_not_of, hc, ih]
    · simp [find_first_not_of, hc]

theorem find_last_not_of_none (t : Str) :
    find_last_not_of t whitespace = none ↔ ∀ c ∈ t, c ∈ whitespace := by
  induction t with
  | nil => simp [find_last_not_of]
  | cons c cs ih =>
    cases h : find_last_not_of cs whitespace with
    | none =>
      have h2 := ih.mp h
      by_cases hc : c ∈ whitespace
      · simp [find_last_not_of, h, hc]; exact h2
      · simp [find_last_not_of, h, hc]
    | some i =>
      have h2 : ¬ ∀ c ∈ cs, c ∈ whitespace := fun hall => by
        rw [ih.mpr hall] at h; cases h
      simp only [find_last_not_of, h]
      constructor
      · intro h3; cases h3
      · intro h3; exact absurd (fun c hc => h3 c (List.mem_cons_of_mem _ hc)) h2

theorem find_last_not_of_take (t : Str) (e : Nat)
    (h : find_last_not_of t whitespace = some e) :
    t.take (e + 1) = t.rdropWhile is_space ∧ e < t.length := by
  induction t generalizing e with
  | nil => simp [find_last_not_of] at h
  | cons c cs ih =>
    rw [rdropWhile_cons_eq]
    cases h2 : find_last_not_of cs whitespace with
    | none =>
      have hall := (find_last_not_of_none cs).mp h2
      have hnil : cs.rdropWhile is_space = [] := by
        rw [List.rdropWhile_eq_nil_iff]; intro x hx; simp [is_space, hall x hx]
      by_cases hc : c ∈ whitespace
      · simp [find_last_not_of, h2, hc] at h
      · simp only [find_last_not_of, h2, hc, if_false, Option.some.injEq] at h
        subst h
        simp [hnil, is_space, hc]
    | some i =>
      simp only [find_last_not_of, h2, Option.some.injEq] at h
      subst h
      obtain ⟨h3, h4⟩ := ih i h2
      have hne : cs.rdropWhile is_space ≠ [] := by
        rw [← h3]
        cases cs with
        | nil => simp at h4
        | cons d ds => simp
      rw [if_neg hne, ← h3]
      exact ⟨by simp, by simp only [List.length_cons]; omega⟩

theorem clean_whitespace_eq (t : Str) : clean_whitespace t = some (spec_trim t) := by
  induction t with
  | nil => simp [clean_whitespace, find_first_not_of, spec_trim]
  | cons c cs ih =>
    by_cases hc : c ∈ whitespace
    · have htrim : spec_trim (c :: cs) = spec_trim cs := by
        simp [spec_trim, is_space, hc]
      rw [htrim, ← ih]
      cases h1 : find_first_not_of cs whitespace with
      | none => simp [clean_whitespace, find_first_not_of, hc, h1]
      | some s =>
        cases h2 : find_last_not_of cs whitespace with
        | none =>
          have := (find_first_not_of_none cs).mpr ((find_last_not_of_none cs).mp h2)
          rw [this] at h1; cases h1
        | some e =>
          simp only [clean_whitespace, find_first_not_of, hc, h1, if_true, Option.map_some',
            find_last_not_of, h2, substr, List.length_cons, List.drop_succ_cons]
          have : e + 1 - (s + 1) + 1 = e - s + 1 := by omega
          rw [this]
          by_cases hs : s > cs.length
          · have : s + 1 > cs.length + 1 := by omega
            simp [hs, this]
          · have : ¬ s + 1 > cs.length + 1 := by omega
            simp [hs, this]
    · have htrim : spec_trim (c :: cs) = (c :: cs).rdropWhile is_space := by
        simp [spec_trim, is_space, hc]
      rw [htrim]
      cases h2 : find_last_not_of (c :: cs) whitespace with
      | none =>
        have := (find_last_not_of_none (c :: cs)).mp h2 c (List.mem_cons_self _ _)
        exact absurd this hc
      | some e =>
        obtain ⟨h3, _⟩ := find_last_not_of_take (c :: cs) e h2
        simp only [clean_whitespace, find_first_not_of, hc, if_false, h2, substr]
        simp [← h3]

theorem remove_quotes_eq (t : Str) : remove_quotes t = some (spec_unquote (spec_trim t)) := by
  simp only [remove_quotes, clean_whitespace_eq, Option.some_bind, spec_unquote]
  by_cases hlen : 2 ≤ (spec_trim t).length
  · by_cases hq : ((spec_trim t).head? = some dquote ∧ (spec_trim t).getLast? = some dquote) ∨
        ((spec_trim t).head? = some squote ∧ (spec_trim t).getLast? = some squote)
    · have h1 : ¬ 1 > (spec_trim t).length := by omega
      simp only [ge_iff_le, hlen, hq, if_true, substr, h1, if_false, and_self,
        List.dropLast_eq_take, List.length_drop]
      have : (spec_trim t).length - 2 = (spec_trim t).length - 1 - 1 := by omega
      rw [this]
    · simp [hlen, hq]
  · simp [hlen]

theorem find_some_lt (line : Str) (ch : Char) (p : Nat) (h : find line ch = some p) :
    p < line.length := by
  induction line generalizing p with
  | nil => simp [find] at h
  | cons c cs ih =>
    by_cases hc : c = ch
    · simp [find, hc] at h; subst h; simp
    · simp only [find, hc, if_false, Option.map_eq_some'] at h
      obtain ⟨q, hq, rfl⟩ := h
      have := ih q hq
      simp only [List.length_cons]; omega

theorem find_append (before after : Str) (ch : Char) (h : ch ∉ before) :
    find (before ++ ch :: after) ch = some before.length := by
  induction before with
  | nil => simp [find]
  | cons c cs ih =>
    have hc : c ≠ ch := fun e => h (by simp [e])
    have hcs : ch ∉ cs := fun e => h (List.mem_cons_of_mem _ e)
    simp [find, hc, ih hcs]

theorem process_env_line_eq (st : Store) (line : Str) (src : variable_source) :
    process_env_line st line src = some (st.record (recorded_entry line) src) := by
  unfold process_env_line recorded_entry
  by_cases h0 : line = [] ∨ line.head? = some '#'
  · simp [h0, Store.record]
  · simp only [h0, if_false]
    cases hf : find line '=' with
    | none =>
      simp only [clean_whitespace_eq, Option.some_bind]
      by_cases hk : spec_trim line = []
      · simp [hk, Store.record]
      · simp [hk, Store.record]
    | some p =>
      have hp := find_some_lt line '=' p hf
      have h1 : ¬ p + 1 > line.length := by omega
      simp only [substr, substr_from, Nat.not_lt_zero, gt_iff_lt, if_false, h1,
        Option.some_bind, List.drop_zero, clean_whitespace_eq, remove_quotes_eq]
      by_cases hk : spec_trim (line.take p) = []
      · simp [hk, Store.record]
      · simp [hk, Store.record]

theorem load_cli_argument_eq (st : Store) (arg : Str) :
    load_cli_argument st arg = some (st.record (flag_entry arg) .cli_args) := by
  unfold load_cli_argument flag_entry
  simp only [substr, Nat.not_lt_zero, gt_iff_lt, if_false, Option.some_bind, List.drop_zero]
  by_cases h : arg.take 2 = ['-', '-']
  · have hlen : ¬ arg.length < 2 := by
      intro hl
      have := congrArg List.length h
      simp at this
      omega
    simp [h, substr_from, hlen, process_env_line_eq]
  · simp [h, Store.record]

/-! ## The store -/

theorem find_push_back (st : Store) (key name : Str) (e : env_entry) :
    (st.push_back key e).find name =
      if key = name then some (st.entries key ++ [e]) else st.find name := by
  induction st with
  | nil =>
    by_cases h : key = name
    · simp [Store.push_back, Store.find, Store.entries, h]
    · simp [Store.push_back, Store.find, h]
  | cons kv rest ih =>
    obtain ⟨k, es⟩ := kv
    by_cases hk : k = key
    · subst hk
      by_cases h : k = name
      · simp [Store.push_back, Store.find, Store.entries, h]
      · simp [Store.push_back, Store.find, h]
    · by_cases h : key = name
      · subst h
        simp [Store.push_back, Store.find, Store.entries, hk, ih]
      · by_cases hkn : k = name
        · subst hkn
          have h2 : ¬ k = key := hk
          simp [Store.push_back, Store.find, h2, h]
        · simp [Store.push_back, Store.find, hk, h, hkn, ih]

theorem push_all_append (st : Store) (xs ys : List (Str × env_entry)) :
    st.push_all (xs ++ ys) = (st.push_all xs).push_all ys := by
  induction xs generalizing st with
  | nil => rfl
  | cons x xs ih => simp [Store.push_all, ih]

theorem keyed_cons (k : Str) (e : env_entry) (rest : List (Str × env_entry)) (name : Str) :
    keyed ((k, e) :: rest) name = if k = name then e :: keyed rest name else keyed rest name := by
  by_cases h : k = name <;> simp [keyed, h]

theorem keyed_append (xs ys : List (Str × env_entry)) (name : Str) :
    keyed (xs ++ ys) name = keyed xs name ++ keyed ys name := by
  simp [keyed]

theorem find_push_all (st : Store) (items : List (Str × env_entry)) (name : Str) :
    (st.push_all items).find name =
      match st.find name with
      | some es => some (es ++ keyed items name)
      | none => if keyed items name = [] then none else some (keyed items name) := by
  induction items generalizing st with
  | nil =>
    cases h : st.find name <;> simp [Store.push_all, keyed, h]
  | cons i rest ih =>
    obtain ⟨k, e⟩ := i
    simp only [Store.push_all]
    rw [ih, find_push_back, keyed_cons]
    by_cases hk : k = name
    · subst hk
      simp only [if_true, Store.entries]
      cases h : st.find k with
      | none => simp
      | some es => simp
    · simp only [hk, if_false]

theorem find_push_all_nil (items : List (Str × env_entry)) (name : Str) :
    (Store.push_all [] items).find name =
      if keyed items name = [] then none else some (keyed items name) := by
  rw [find_push_all]; rfl

theorem load_cli_arguments_loop_eq (st : Store) (args : List Str) :
    load_cli_arguments_loop st args = some (st.push_all (cli_items args)) := by
  induction args generalizing st with
  | nil => rfl
  | cons a rest ih =>
    simp only [load_cli_arguments_loop, load_cli_argument_eq, Option.some_bind, ih]
    cases h : flag_entry a with
    | none => simp [cli_items, h, Store.record]
    | some r => simp [cli_items, h, Store.record, Store.push_all, tagged]

theorem load_env_lines_eq (st : Store) (lines : List Str) :
    load_env_lines st lines = some (st.push_all (line_items lines)) := by
  induction lines generalizing st with
  | nil => rfl
  | cons l rest ih =>
    simp only [load_env_lines, process_env_line_eq, Option.some_bind, ih]
    cases h : recorded_entry l with
    | none => simp [line_items, h, Store.record]
    | some r => simp [line_items, h, Store.record, Store.push_all, tagged]

theorem load_env_file_eq (fs : FileSystem) (st : Store) (file_path : Str) :
    load_env_file fs st file_path = some (st.push_all (file_items fs file_path)) := by
  unfold load_env_file file_items
  cases fs file_path with
  | none => rfl
  | some contents => exact load_env_lines_eq st _

theorem load_env_paths_eq (fs : FileSystem) (st : Store) (paths : List Str) :
    load_env_paths fs st paths = some (st.push_all (path_items fs paths)) := by
  induction paths generalizing st with
  | nil => rfl
  | cons p rest ih =>
    by_cases hp : p = []
    · simp [load_env_paths, path_items, hp, ih]
    · simp [load_env_paths, path_items, hp, ih, load_env_file_eq, push_all_append]

theorem construct_eq (fs : FileSystem) (argc : Int) (argv : Option (List Str))
    (env_paths : List Str) :
    construct fs argc argv env_paths =
      some (Store.push_all [] (arg_items argc argv ++ path_items fs env_paths)) := by
  unfold construct arg_items
  cases argv with
  | none => simp [load_env_paths_eq, Store.push_all]
  | some args =>
    by_cases h : argc > 0
    · simp [h, load_cli_arguments, load_cli_arguments_loop_eq, load_env_paths_eq,
        push_all_append]
    · simp [h, load_env_paths_eq, Store.push_all]

/-! ## Lookup helpers -/

theorem first_value_eq_find (es : List env_entry) (src : variable_source) :
    first_value es src =
      (es.find? fun e => decide (e.source = src)).map fun e => e.value := by
  induction es with
  | nil => rfl
  | cons e rest ih =>
    by_cases h : e.source = src
    · simp [first_value, h]
    · simp [first_value, h, ih]

theorem has_source_iff (es : List env_entry) (src : variable_source) :
    has_source es src = true ↔ ∃ e ∈ es, e.source = src := by
  induction es with
  | nil => simp [has_source]
  | cons e rest ih =>
    by_cases h : e.source = src
    · simp [has_source, h]
    · simp [has_source, h, ih]

theorem first_value_none_of_forall (es : List env_entry) (src : variable_source)
    (h : ∀ e ∈ es, e.source ≠ src) : first_value es src = none := by
  induction es with
  | nil => rfl
  | cons e rest ih =>
    have h1 : e.source ≠ src := h e (List.mem_cons_self _ _)
    simp only [first_value, h1, if_false]
    exact ih fun x hx => h x (List.mem_cons_of_mem _ hx)

theorem has_source_false_of_forall (es : List env_entry) (src : variable_source)
    (h : ∀ e ∈ es, e.source ≠ src) : has_source es src = false := by
  cases hs : has_source es src with
  | false => rfl
  | true =>
    obtain ⟨e, he, hsrc⟩ := (has_source_iff es src).mp hs
    exact absurd hsrc (h e he)

/-! ## Stores the constructor builds -/

theorem cli_items_source (args : List Str) :
    ∀ i ∈ cli_items args, i.2.source = .cli_args := by
  intro i hi
  simp only [cli_items, List.mem_filterMap, Option.map_eq_some'] at hi
  obtain ⟨a, _, r, _, rfl⟩ := hi
  rfl

theorem line_items_source (lines : List Str) :
    ∀ i ∈ line_items lines, i.2.source = .env_file := by
  intro i hi
  simp only [line_items, List.mem_filterMap, Option.map_eq_some'] at hi
  obtain ⟨a, _, r, _, rfl⟩ := hi
  rfl

theorem path_items_source (fs : FileSystem) (paths : List Str) :
    ∀ i ∈ path_items fs paths, i.2.source = .env_file := by
  induction paths with
  | nil => intro i hi; simp [path_items] at hi
  | cons p rest ih =>
    intro i hi
    by_cases hp : p = []
    · simp only [path_items, hp, ne_eq, not_true_eq_false, if_false] at hi
      exact ih i hi
    · simp only [path_items, hp, ne_eq, not_false_eq_true, if_true, List.mem_append] at hi
      rcases hi with hi | hi
      · unfold file_items at hi
        cases hfs : fs p with
        | none => simp [hfs] at hi
        | some c => rw [hfs] at hi; exact line_items_source _ i hi
      · exact ih i hi

theorem arg_items_source (argc : Int) (argv : Option (List Str)) :
    ∀ i ∈ arg_items argc argv, i.2.source = .cli_args := by
  intro i hi
  unfold arg_items at hi
  cases argv with
  | none => simp at hi
  | some args =>
    by_cases h : argc > 0
    · simp only [h, if_true] at hi; exact cli_items_source _ i hi
    · simp [h] at hi

theorem keyed_mem (items : List (Str × env_entry)) (name : Str) (e : env_entry)
    (h : e ∈ keyed items name) : (name, e) ∈ items := by
  simp only [keyed, List.mem_map, List.mem_filter, decide_eq_true_eq] at h
  obtain ⟨i, ⟨hi, hk⟩, rfl⟩ := h
  rw [← hk]; exact hi

theorem built_entries_source (fs : FileSystem) (argc : Int) (argv : Option (List Str))
    (env_paths : List Str) (name : Str) (es : List env_entry)
    (h : (Store.push_all [] (arg_items argc argv ++ path_items fs env_paths)).find name
      = some es) :
    ∀ e ∈ es, e.source = .cli_args ∨ e.source = .env_file := by
  rw [find_push_all_nil] at h
  intro e he
  by_cases hk : keyed (arg_items argc argv ++ path_items fs env_paths) name = []
  · simp [hk] at h
  · simp only [hk, if_false, Option.some.injEq] at h
    subst h
    have hm := keyed_mem _ _ _ he
    rcases List.mem_append.mp hm with hm | hm
    · exact Or.inl (arg_items_source argc argv _ hm)
    · exact Or.inr (path_items_source fs env_paths _ hm)

/-! ## Precedence of the unfiltered lookup -/

/-- C1: for every store, key, default and system environment, `get_value` with
source `any` returns the value of the first entry of the key tagged `cli_args` if
there is one, otherwise the value of the first entry tagged `env_file` if there
is one, otherwise `remove_quotes` of the environment value if the environment
holds the key, otherwise the default. The second part is the instance where an
`env_file` entry is stored in front of the `cli_args` entry: the latter wins. -/
theorem get_value_any_precedence (st : Store) (env : SysEnv) (key D : Str) :
    get_value st env key D .any =
      (match (st.entries key).find? fun e => decide (e.source = .cli_args) with
       | some e => some e.value
       | none =>
         match (st.entries key).find? fun e => decide (e.source = .env_file) with
         | some e => some e.value
         | none =>
           match env key with
           | some v => remove_quotes v
           | none => some D) ∧
    ∀ (w v : Str) (later : List env_entry) (others : Store),
      get_value ((key, ⟨w, .env_file⟩ :: ⟨v, .cli_args⟩ :: later) :: others) env key D .any
        = some v := by
  constructor
  · unfold get_value get_stored Store.entries get_system_env
    cases hf : st.find key with
    | none => simp
    | some es =>
      simp only [if_true, first_value_eq_find, Option.getD_some]
      cases h1 : es.find? fun e => decide (e.source = .cli_args) with
      | some e => simp
      | none =>
        cases h2 : es.find? fun e => decide (e.source = .env_file) with
        | some e => simp
        | none => simp
  · intro w v later others
    simp [get_value, get_stored, Store.find, first_value]

/-! ## Source-filtered lookup, presence, absence -/

/-- C7: for every store, key, default and system environment, and for a source
filter `cli_args` or `env_file`, `get_value` returns the value of the first entry
of the key tagged with that source, or the default when the key has no such entry;
the result is the same under any other environment. -/
theorem get_value_filtered_no_fallback (st : Store) (env : SysEnv) (key D : Str)
    (src : variable_source) (hsrc : src = .cli_args ∨ src = .env_file) :
    get_value st env key D src =
      some (match (st.entries key).find? fun e => decide (e.source = src) with
            | some e => e.value
            | none => D) ∧
    ∀ other : SysEnv, get_value st other key D src = get_value st env key D src := by
  have hany : src ≠ .any := by rcases hsrc with h | h <;> simp [h]
  have hsys : src ≠ .system_env := by rcases hsrc with h | h <;> simp [h]
  have key_eq : ∀ en : SysEnv, get_value st en key D src =
      some (match (st.entries key).find? fun e => decide (e.source = src) with
            | some e => e.value
            | none => D) := by
    intro en
    unfold get_value get_stored Store.entries
    cases hf : st.find key with
    | none => simp [hany, hsys]
    | some es =>
      simp only [hany, if_false, first_value_eq_find, Option.getD_some]
      cases h1 : es.find? fun e => decide (e.source = src) with
      | some e => simp
      | none => simp [hany, hsys]
  exact ⟨key_eq env, fun other => by rw [key_eq other, key_eq env]⟩

/-- Witness of C7: the key has a file entry and a later CLI entry and the
environment defines it too; the CLI-filtered lookup returns the CLI value. -/
theorem get_value_filtered_no_fallback_witness :
    get_value [("k".toList, [⟨"f".toList, .env_file⟩, ⟨"c".toList, .cli_args⟩])]
        (fun _ => some "e".toList) "k".toList "d".toList .cli_args = some "c".toList :=
  (get_value_filtered_no_fallback
    [("k".toList, [⟨"f".toList, .env_file⟩, ⟨"c".toList, .cli_args⟩])]
    (fun _ => some "e".toList) "k".toList "d".toList .cli_args (Or.inl rfl)).1

/-- C8: on every store the constructor builds, `get_value` with source
`system_env` does not depend on the store: it is `remove_quotes` of the
environment value when the environment holds the key and the default otherwise. -/
theorem get_value_system_env_built (fs : FileSystem) (argc : Int)
    (argv : Option (List Str)) (env_paths : List Str) :
    ∃ st, construct fs argc argv env_paths = some st ∧
      ∀ (env : SysEnv) (key D : Str),
        get_value st env key D .system_env =
          match env key with
          | some v => remove_quotes v
          | none => some D := by
  refine ⟨_, construct_eq fs argc argv env_paths, ?_⟩
  intro env key D
  have hstored : get_stored
      (Store.push_all [] (arg_items argc argv ++ path_items fs env_paths)) key .system_env
      = none := by
    unfold get_stored
    cases hf : (Store.push_all [] (arg_items argc argv ++ path_items fs env_paths)).find key with
    | none => rfl
    | some es =>
      have hsrc := built_entries_source fs argc argv env_paths key es hf
      have : first_value es .system_env = none :=
        first_value_none_of_forall es _ fun e he => by
          rcases hsrc e he with h | h <;> simp [h]
      simp [this]
  simp only [get_value, hstored, get_system_env]
  cases env key <;> simp

/-- C9: for every store, key and environment, `has_variable` with source `any`
is true exactly when the key is in the store or in the environment; with source
`cli_args` (resp. `env_file`) it is true exactly when the key has an entry with
that tag; and on every store the constructor builds, with source `system_env` it
is true exactly when the environment holds the key. -/
theorem has_variable_characterisation :
    (∀ (st : Store) (env : SysEnv) (key : Str),
      has_variable st env key .any = true ↔ ((st.find key).isSome ∨ (env key).isSome)) ∧
    (∀ (st : Store) (env : SysEnv) (key : Str),
      has_variable st env key .cli_args = true ↔
        ∃ e ∈ st.entries key, e.source = .cli_args) ∧
    (∀ (st : Store) (env : SysEnv) (key : Str),
      has_variable st env key .env_file = true ↔
        ∃ e ∈ st.entries key, e.source = .env_file) ∧
    (∀ (fs : FileSystem) (argc : Int) (argv : Option (List Str)) (env_paths : List Str),
      ∃ st, construct fs argc argv env_paths = some st ∧
        ∀ (env : SysEnv) (key : Str),
          has_variable st env key .system_env = true ↔ (env key).isSome) := by
  refine ⟨?_, ?_, ?_, ?_⟩
  · intro st env key
    unfold has_variable get_system_env
    cases hf : st.find key <;> simp
  · intro st env key
    unfold has_variable Store.entries
    cases hf : st.find key with
    | none => simp
    | some es => simp [has_source_iff]
  · intro st env key
    unfold has_variable Store.entries
    cases hf : st.find key with
    | none => simp
    | some es => simp [has_source_iff]
  · intro fs argc argv env_paths
    refine ⟨_, construct_eq fs argc argv env_paths, ?_⟩
    intro env key
    unfold has_variable get_system_env
    cases hf : (Store.push_all [] (arg_items argc argv ++ path_items fs env_paths)).find key with
    | none => simp
    | some es =>
      have hsrc := built_entries_source fs argc argv env_paths key es hf
      have : has_source es .system_env = false :=
        has_source_false_of_forall es _ fun e he => by
          rcases hsrc e he with h | h <;> simp [h]
      simp [this]

/-- C10: for every store, every default and every key that is absent from the
store and from the system environment, `get_value` returns the default (it does
return: the result is `some`) and `has_variable` is false. -/
theorem absent_key_default (st : Store) (env : SysEnv) (key D : Str)
    (hst : st.find key = none) (henv : env key = none) :
    get_value st env key D .any = some D ∧ has_variable st env key .any = false := by
  simp [get_value, get_stored, has_variable, get_system_env, hst, henv]

/-- Witness of C10: a store holding another key, an empty environment. -/
theorem absent_key_default_witness :
    get_value [("a".toList, [⟨"1".toList, .env_file⟩])] (fun _ => none) "b".toList
        "d".toList .any = some "d".toList ∧
    has_variable [("a".toList, [⟨"1".toList, .env_file⟩])] (fun _ => none) "b".toList
        .any = false :=
  absent_key_default [("a".toList, [⟨"1".toList, .env_file⟩])] (fun _ => none) "b".toList
    "d".toList (by decide) rfl

/-! ## Command-line entries win, end to end -/

theorem flag_entry_of_records (arg k v : Str)
    (h : load_cli_argument [] arg = some [(k, [⟨v, .cli_args⟩])]) :
    flag_entry arg = some (k, v) := by
  rw [load_cli_argument_eq] at h
  cases hf : flag_entry arg with
  | none => rw [hf] at h; simp [Store.record] at h
  | some r =>
    obtain ⟨k1, v1⟩ := r
    rw [hf] at h
    simp only [Store.record, Store.push_back, Option.some.injEq, List.cons.injEq,
      Prod.mk.injEq, env_entry.mk.injEq, and_true] at h
    obtain ⟨h1, h2⟩ := h
    rw [h1, h2]

theorem records_of_flag_entry (arg k v : Str) (h : flag_entry arg = some (k, v)) :
    load_cli_argument [] arg = some [(k, [⟨v, .cli_args⟩])] := by
  rw [load_cli_argument_eq, h]; rfl

theorem keyed_cli_items_nil (args : List Str) (k : Str)
    (h : ∀ a ∈ args, ∀ w, load_cli_argument [] a ≠ some [(k, [⟨w, .cli_args⟩])]) :
    keyed (cli_items args) k = [] := by
  induction args with
  | nil => rfl
  | cons a rest ih =>
    have hrest := ih fun x hx => h x (List.mem_cons_of_mem _ hx)
    cases hf : flag_entry a with
    | none =>
      have : cli_items (a :: rest) = cli_items rest := by simp [cli_items, hf]
      rw [this]; exact hrest
    | some r =>
      obtain ⟨k1, v1⟩ := r
      have hne : k1 ≠ k := by
        intro hk
        subst hk
        exact h a (List.mem_cons_self _ _) v1 (records_of_flag_entry a k1 v1 hf)
      have : cli_items (a :: rest) = (k1, ⟨v1, .cli_args⟩) :: cli_items rest := by
        simp [cli_items, hf, tagged]
      rw [this, keyed_cons, if_neg hne]; exact hrest

theorem cli_items_append (xs ys : List Str) :
    cli_items (xs ++ ys) = cli_items xs ++ cli_items ys := by
  simp [cli_items]

/-- C2: through the constructor, for every argument vector, path list, file
system, environment and default: when `arg` is the first visited argument
(`argv[1..argc-1]`) that records key `k`, and it records value `v`, construction
succeeds and `get_value k D` on the built store is `v`, whatever the files and
the environment hold for `k`. "Argument `a` records `(k, w)`" is: the loop body
of `load_cli_arguments`, run on `a` from the empty store, yields the store with
the single `cli_args` entry `w` under `k`. -/
theorem cli_flag_wins (fs : FileSystem) (argc : Int) (argv : List Str)
    (env_paths : List Str) (env : SysEnv) (k v D : Str)
    (earlier later : List Str) (arg : Str)
    (hvisited : visited_arguments argc argv = earlier ++ arg :: later)
    (hrecords : load_cli_argument [] arg = some [(k, [⟨v, .cli_args⟩])])
    (hfirst : ∀ a ∈ earlier, ∀ w, load_cli_argument [] a ≠ some [(k, [⟨w, .cli_args⟩])]) :
    ∃ st, construct fs argc (some argv) env_paths = some st ∧
      get_value st env k D .any = some v := by
  refine ⟨_, construct_eq fs argc (some argv) env_paths, ?_⟩
  have hargc : argc > 0 := by
    by_contra hn
    have h0 : argc.toNat = 0 := by omega
    simp [visited_arguments, h0] at hvisited
  have hitems : keyed (arg_items argc (some argv) ++ path_items fs env_paths) k =
      ⟨v, .cli_args⟩ :: (keyed (cli_items later) k ++ keyed (path_items fs env_paths) k) := by
    have hfe := flag_entry_of_records arg k v hrecords
    have hone : cli_items (arg :: later) = (k, ⟨v, .cli_args⟩) :: cli_items later := by
      simp [cli_items, hfe, tagged]
    simp only [arg_items, hargc, if_true, hvisited, keyed_append, cli_items_append, hone,
      keyed_cli_items_nil earlier k hfirst, keyed_cons, List.nil_append, List.cons_append]
  simp [get_value, get_stored, find_push_all_nil, hitems, first_value]

/-- Witness of C2: arguments `prog pos --name=Alice --name=Zed`, a file
`.env` with the line `name=Bob`, and an environment that also defines the key. -/
theorem cli_flag_wins_witness :
    ∃ st, construct (fun p => if p = ".env".toList then some "name=Bob".toList else none) 4
        (some ["prog".toList, "pos".toList, "--name=Alice".toList, "--name=Zed".toList])
        [".env".toList] = some st ∧
      get_value st (fun _ => some "Eve".toList) "name".toList [] .any = some "Alice".toList :=
  cli_flag_wins (fun p => if p = ".env".toList then some "name=Bob".toList else none) 4
    ["prog".toList, "pos".toList, "--name=Alice".toList, "--name=Zed".toList]
    [".env".toList] (fun _ => some "Eve".toList) "name".toList "Alice".toList []
    ["pos".toList] ["--name=Zed".toList] "--name=Alice".toList (by decide) (by decide)
    (by
      intro a ha w
      have ha1 : a = "pos".toList := by simpa using ha
      have hrun : load_cli_argument [] "pos".toList = some [] := by decide
      rw [ha1, hrun]
      simp)

/-! ## The line grammar -/

theorem recorded_entry_blank (line : Str) (h : spec_trim line = []) :
    recorded_entry line = none := by
  unfold recorded_entry
  by_cases h0 : line = [] ∨ line.head? = some '#'
  · simp [h0]
  · simp only [h0, if_false]
    cases hf : find line '=' with
    | none => simp [h]
    | some p =>
      have hall : ∀ c ∈ line, is_space c = true := by
        have h1 : line.dropWhile is_space = [] := by
          have := (List.rdropWhile_eq_nil_iff (p := is_space) (l := line.dropWhile is_space)).mp h
          by_contra hne
          have hpos : 0 < (line.dropWhile is_space).length := List.length_pos.mpr hne
          have hnot := List.dropWhile_get_zero_not is_space line hpos
          exact hnot (this _ (List.getElem_mem _))
        exact List.dropWhile_eq_nil_iff.mp h1
      have htake : spec_trim (line.take p) = [] := by
        have h2 : (line.take p).dropWhile is_space = [] :=
          List.dropWhile_eq_nil_iff.mpr fun c hc => hall c (List.mem_of_mem_take hc)
        simp [spec_trim, h2]
      simp [htake]

/-- A line that is empty after trimming, or whose first character is `#`,
leaves the store unchanged. -/
theorem blank_or_hash_line_unchanged (st : Store) (line : Str) (src : variable_source)
    (h : spec_trim line = [] ∨ line.head? = some '#') :
    process_env_line st line src = some st := by
  rw [process_env_line_eq]
  rcases h with h | h
  · rw [recorded_entry_blank line h]; rfl
  · simp [recorded_entry, h, Store.record]

/-- C3, evaluated at the line `  # comment`: the trimmed line begins with `#`,
the line itself begins with a space, and `process_env_line` records an entry
with empty value under the key `# comment`; the store is not left unchanged and
`has_variable` reports the key. -/
theorem indented_comment_recorded :
    (spec_trim "  # comment".toList).head? = some '#' ∧
    process_env_line [] "  # comment".toList .env_file =
      some [("# comment".toList, [⟨[], .env_file⟩])] ∧
    process_env_line [] "  # comment".toList .env_file ≠ some [] ∧
    has_variable [("# comment".toList, [⟨[], .env_file⟩])] (fun _ => none)
      "# comment".toList .any = true := by
  refine ⟨by decide, by decide, by decide, by decide⟩

theorem find_push_back_self (st : Store) (key : Str) (e : env_entry) :
    (st.push_back key e).find key = some (st.entries key ++ [e]) := by
  rw [find_push_back]; simp

theorem find_push_back_other (st : Store) (key name : Str) (e : env_entry)
    (h : name ≠ key) : (st.push_back key e).find name = st.find name := by
  rw [find_push_back]
  have : ¬ key = name := fun hk => h hk.symm
  simp [this]

theorem recorded_entry_assignment (before after : Str)
    (hfirst : '=' ∉ before) (hhash : (before ++ '=' :: after).head? ≠ some '#')
    (hkey : spec_trim before ≠ []) :
    recorded_entry (before ++ '=' :: after) =
      some (spec_trim before, spec_unquote (spec_trim after)) := by
  unfold recorded_entry
  have h0 : ¬ (before ++ '=' :: after = [] ∨ (before ++ '=' :: after).head? = some '#') := by
    intro h
    rcases h with h | h
    · simp at h
    · exact hhash h
  have htake : (before ++ '=' :: after).take before.length = before := by simp
  have hdrop : (before ++ '=' :: after).drop (before.length + 1) = after := by
    rw [← List.drop_drop]; simp
  simp only [h0, if_false, find_append before after '=' hfirst, htake, hdrop]
  simp [hkey]

/-- C4: for every line `before ++ "=" ++ after` in which `before` holds no `=`
(so the split is at the first `=`), which does not start with `#`, and whose
`before` trims to a non-empty key: `process_env_line` succeeds and appends exactly
one entry under the trimmed key (the key's sequence grows by that entry at the
end, every other key is untouched); the value is `after`, trimmed, with one layer
of surrounding quotes removed when the trimmed text has length at least 2 and
begins and ends with the same quote character, and otherwise the trimmed text. -/
theorem assignment_line_appends (st : Store) (before after : Str) (src : variable_source)
    (hfirst : '=' ∉ before) (hhash : (before ++ '=' :: after).head? ≠ some '#')
    (hkey : spec_trim before ≠ []) :
    ∃ st1, process_env_line st (before ++ '=' :: after) src = some st1 ∧
      st1 = st.push_back (spec_trim before) ⟨spec_unquote (spec_trim after), src⟩ ∧
      st1.find (spec_trim before) =
        some (st.entries (spec_trim before) ++ [⟨spec_unquote (spec_trim after), src⟩]) ∧
      ∀ name, name ≠ spec_trim before → st1.find name = st.find name := by
  refine ⟨_, ?_, rfl, find_push_back_self _ _ _, fun name hn => find_push_back_other _ _ _ _ hn⟩
  rw [process_env_line_eq, recorded_entry_assignment before after hfirst hhash hkey]
  rfl

/-- Witness of C4: the line `a=b=c` on a store that already holds `a`. -/
theorem assignment_line_appends_witness :
    ∃ st1, process_env_line [("a".toList, [⟨"x".toList, .cli_args⟩])] "a=b=c".toList .env_file
        = some st1 ∧
      st1 = Store.push_back [("a".toList, [⟨"x".toList, .cli_args⟩])] (spec_trim "a".toList)
        ⟨spec_unquote (spec_trim "b=c".toList), .env_file⟩ ∧
      st1.find (spec_trim "a".toList) =
        some (Store.entries [("a".toList, [⟨"x".toList, .cli_args⟩])] (spec_trim "a".toList)
          ++ [⟨spec_unquote (spec_trim "b=c".toList), .env_file⟩]) ∧
      ∀ name, name ≠ spec_trim "a".toList →
        st1.find name = Store.find [("a".toList, [⟨"x".toList, .cli_args⟩])] name :=
  assignment_line_appends [("a".toList, [⟨"x".toList, .cli_args⟩])] "a".toList "b=c".toList
    .env_file (by decide) (by decide) (by decide)

/-! ## Single-line files: quoting round trip and presence-only keys -/

theorem getlines_from_append (l rest cur : Str) (h : '\n' ∉ l) :
    getlines_from (l ++ rest) cur = getlines_from rest (cur ++ l) := by
  induction l generalizing cur with
  | nil => simp
  | cons c cs ih =>
    have hc : c ≠ '\n' := fun e => h (by simp [e])
    have hcs : '\n' ∉ cs := fun e => h (List.mem_cons_of_mem _ e)
    simp [getlines_from, hc, ih (cur ++ [c]) hcs]

theorem getlines_single (line contents : Str) (hne : line ≠ []) (hnl : '\n' ∉ line)
    (hc : contents = line ∨ contents = line ++ ['\n']) : getlines contents = [line] := by
  rcases hc with hc | hc
  · have := getlines_from_append line [] [] hnl
    simp only [List.append_nil, List.nil_append] at this
    simp [hc, getlines, this, getlines_from, hne]
  · have := getlines_from_append line ['\n'] [] hnl
    simp only [List.nil_append] at this
    simp [hc, getlines, this, getlines_from]

theorem spec_trim_eq_self (s : Str)
    (hhead : ∀ c, s.head? = some c → c ∉ whitespace)
    (hlast : ∀ c, s.getLast? = some c → c ∉ whitespace) : spec_trim s = s := by
  have h1 : s.dropWhile is_space = s := by
    rw [List.dropWhile_eq_self_iff]
    intro hl
    have : s.head? = some (s.get ⟨0, hl⟩) := by
      cases s with
      | nil => simp at hl
      | cons c cs => simp
    simpa [is_space] using hhead _ this
  have h2 : s.rdropWhile is_space = s := by
    rw [List.rdropWhile_eq_self_iff]
    intro hl
    have : s.getLast? = some (s.getLast hl) := List.getLast?_eq_getLast s hl
    simpa [is_space] using hlast _ this
  rw [spec_trim, h1, h2]

theorem spec_unquote_wrap (q : Char) (v : Str) (hq : q = dquote ∨ q = squote) :
    spec_unquote (spec_trim (q :: v ++ [q])) = v := by
  have hqw : q ∉ whitespace := by rcases hq with h | h <;> subst h <;> decide
  have hlast : (q :: v ++ [q]).getLast? = some q := by
    rw [List.getLast?_concat]
  have htrim : spec_trim (q :: v ++ [q]) = q :: v ++ [q] := by
    apply spec_trim_eq_self
    · intro c hc
      simp only [List.cons_append, List.head?_cons, Option.some.injEq] at hc
      rw [← hc]; exact hqw
    · intro c hc
      rw [hlast, Option.some.injEq] at hc
      rw [← hc]; exact hqw
  have hcond : 2 ≤ (q :: v ++ [q]).length ∧
      (((q :: v ++ [q]).head? = some dquote ∧ (q :: v ++ [q]).getLast? = some dquote) ∨
       ((q :: v ++ [q]).head? = some squote ∧ (q :: v ++ [q]).getLast? = some squote)) := by
    refine ⟨by simp, ?_⟩
    rw [hlast]
    rcases hq with h | h
    · left; simp [h]
    · right; simp [h]
  rw [htrim, spec_unquote, if_pos hcond]
  simp

theorem arg_items_nil (argc : Int) (argv : Option (List Str))
    (h : ∀ args, argv = some args → visited_arguments argc args = []) :
    arg_items argc argv = [] := by
  unfold arg_items
  cases argv with
  | none => rfl
  | some args =>
    show (if argc > 0 then cli_items (visited_arguments argc args) else []) = []
    rw [h args rfl]
    by_cases hc : argc > 0 <;> simp [hc, cli_items]

theorem path_items_single (fs : FileSystem) (file_path contents line : Str)
    (hpath : file_path ≠ []) (hfile : fs file_path = some contents)
    (hlines : getlines contents = [line]) (r : Str × Str)
    (hrec : recorded_entry line = some r) :
    path_items fs [file_path] = [(r.1, ⟨r.2, .env_file⟩)] := by
  simp [path_items, hpath, file_items, hfile, hlines, line_items, hrec, tagged]

/-- C5: for every key `K` that is non-empty, has no leading or trailing
whitespace, holds no `=` and no line break and does not start with `#`, every
value `v` without a line break, and either quote character `q`: when no
command-line argument is visited and the only configured file holds the single
line `K=qvq` (with or without a final newline), construction succeeds and
`get_value K` on the built store is exactly `v`, for every default and
environment. -/
theorem quoted_value_round_trip (fs : FileSystem) (argc : Int) (argv : Option (List Str))
    (file_path contents K v D : Str) (q : Char) (env : SysEnv)
    (hq : q = dquote ∨ q = squote)
    (hK : K ≠ [])
    (hKhead : ∀ c, K.head? = some c → c ∉ whitespace)
    (hKlast : ∀ c, K.getLast? = some c → c ∉ whitespace)
    (hKeq : '=' ∉ K) (hKhash : K.head? ≠ some '#')
    (hKnl : '\n' ∉ K) (hvnl : '\n' ∉ v)
    (hnoargs : ∀ args, argv = some args → visited_arguments argc args = [])
    (hpath : file_path ≠ []) (hfile : fs file_path = some contents)
    (hcontents : contents = K ++ '=' :: (q :: v ++ [q]) ∨
      contents = (K ++ '=' :: (q :: v ++ [q])) ++ ['\n']) :
    ∃ st, construct fs argc argv [file_path] = some st ∧
      get_value st env K D .any = some v := by
  refine ⟨_, construct_eq fs argc argv [file_path], ?_⟩
  have hqnl : q ≠ '\n' := by rcases hq with h | h <;> subst h <;> decide
  have hlines : getlines contents = [K ++ '=' :: (q :: v ++ [q])] := by
    apply getlines_single _ _ (by simp) _ hcontents
    have heq : '\n' ≠ '=' := by decide
    simp [List.mem_append, hKnl, hvnl, Ne.symm hqnl, heq]
  have hhead : (K ++ '=' :: (q :: v ++ [q])).head? ≠ some '#' := by
    cases K with
    | nil => exact absurd rfl hK
    | cons c cs => simpa using hKhash
  have hKtrim : spec_trim K = K := spec_trim_eq_self K hKhead hKlast
  have hrec := recorded_entry_assignment K (q :: v ++ [q]) hKeq hhead (by rw [hKtrim]; exact hK)
  rw [hKtrim, spec_unquote_wrap q v hq] at hrec
  have hitems := path_items_single fs file_path contents _ hpath hfile hlines _ hrec
  simp [arg_items_nil argc argv hnoargs, hitems, get_value, get_stored, find_push_all_nil,
    keyed, first_value]

/-- Witness of C5: the file `cfg` holds `KEY=" a 'b' "` (double quotes, inner
spaces and quotes); the lookup returns the text between the outer quotes. -/
theorem quoted_value_round_trip_witness :
    ∃ st, construct
        (fun p => if p = "cfg".toList then
          some ("KEY".toList ++ '=' :: (dquote :: " a 'b' ".toList ++ [dquote])) else none)
        1 (some ["prog".toList]) ["cfg".toList] = some st ∧
      get_value st (fun _ => none) "KEY".toList [] .any = some " a 'b' ".toList :=
  quoted_value_round_trip
    (fun p => if p = "cfg".toList then
      some ("KEY".toList ++ '=' :: (dquote :: " a 'b' ".toList ++ [dquote])) else none)
    1 (some ["prog".toList]) "cfg".toList
    ("KEY".toList ++ '=' :: (dquote :: " a 'b' ".toList ++ [dquote]))
    "KEY".toList " a 'b' ".toList [] dquote (fun _ => none)
    (Or.inl rfl) (by decide)
    (by intro c hc; have : c = 'K' := by simpa using hc.symm
        rw [this]; decide)
    (by intro c hc; have : c = 'Y' := by simpa using hc.symm
        rw [this]; decide)
    (by decide) (by decide) (by decide) (by decide)
    (by intro args h; cases h; rfl)
    (by decide) (by decide) (Or.inl rfl)

theorem find_none_of_not_mem (line : Str) (ch : Char) (h : ch ∉ line) :
    find line ch = none := by
  induction line with
  | nil => rfl
  | cons c cs ih =>
    have hc : c ≠ ch := fun e => h (by simp [e])
    have hcs : ch ∉ cs := fun e => h (List.mem_cons_of_mem _ e)
    simp [find, hc, ih hcs]

theorem spec_trim_head_hash (line : Str) (h : line.head? = some '#') :
    (spec_trim line).head? = some '#' := by
  cases line with
  | nil => simp at h
  | cons c cs =>
    simp only [List.head?_cons, Option.some.injEq] at h
    subst h
    have hsp : is_space '#' = false := by decide
    have hdrop : ('#' :: cs).dropWhile is_space = '#' :: cs := by simp [hsp]
    rw [spec_trim, hdrop, rdropWhile_cons_eq]
    by_cases hnil : cs.rdropWhile is_space = [] <;> simp [hnil, hsp]

theorem recorded_entry_bare (line : Str) (hnoeq : '=' ∉ line)
    (hne : spec_trim line ≠ []) (hhash : (spec_trim line).head? ≠ some '#') :
    recorded_entry line = some (spec_trim line, []) := by
  unfold recorded_entry
  have h0 : ¬ (line = [] ∨ line.head? = some '#') := by
    intro h
    rcases h with h | h
    · subst h; exact hne (by decide)
    · exact hhash (spec_trim_head_hash line h)
  simp [h0, find_none_of_not_mem line '=' hnoeq, hne]

/-- C6: for every line that holds no `=`, trims to a non-empty key `K` and whose
first character after trimming is not `#`: (file) when no command-line argument
is visited and the only configured file has exactly that line, and (flag) when
the argument vector is `prog --line`, with any files, construction succeeds,
`has_variable K` is true and `get_value K D` is the empty string for every
default `D` and every environment. -/
theorem presence_only_key (line K : Str) (hnoeq : '=' ∉ line) (hK : spec_trim line = K)
    (hne : K ≠ []) (hhash : K.head? ≠ some '#') :
    (∀ (fs : FileSystem) (argc : Int) (argv : Option (List Str))
        (file_path contents : Str) (env : SysEnv) (D : Str),
        (∀ args, argv = some args → visited_arguments argc args = []) →
        file_path ≠ [] → fs file_path = some contents → getlines contents = [line] →
        ∃ st, construct fs argc argv [file_path] = some st ∧
          has_variable st env K .any = true ∧ get_value st env K D .any = some []) ∧
    (∀ (fs : FileSystem) (prog : Str) (env_paths : List Str) (env : SysEnv) (D : Str),
        ∃ st, construct fs 2 (some [prog, '-' :: '-' :: line]) env_paths = some st ∧
          has_variable st env K .any = true ∧ get_value st env K D .any = some []) := by
  subst hK
  have hrec := recorded_entry_bare line hnoeq hne hhash
  constructor
  · intro fs argc argv file_path contents env D hnoargs hpath hfile hlines
    refine ⟨_, construct_eq fs argc argv [file_path], ?_⟩
    have hitems := path_items_single fs file_path contents line hpath hfile hlines _ hrec
    simp [arg_items_nil argc argv hnoargs, hitems, get_value, get_stored, has_variable,
      find_push_all_nil, keyed, first_value]
  · intro fs prog env_paths env D
    refine ⟨_, construct_eq fs 2 (some [prog, '-' :: '-' :: line]) env_paths, ?_⟩
    have hflag : flag_entry ('-' :: '-' :: line) = some (spec_trim line, []) := by
      simp [flag_entry, hrec]
    have hitems : arg_items 2 (some [prog, '-' :: '-' :: line]) =
        [(spec_trim line, ⟨[], .cli_args⟩)] := by
      simp [arg_items, visited_arguments, cli_items, hflag, tagged]
    simp [hitems, get_value, get_stored, has_variable, find_push_all_nil, keyed_append,
      keyed_cons, first_value]

/-- Witness of C6: the line ` FOO` (leading space), as the only line of the file
`cfg` and as the flag `-- FOO`. -/
theorem presence_only_key_witness :
    (∃ st, construct (fun p => if p = "cfg".toList then some " FOO\n".toList else none)
        0 none ["cfg".toList] = some st ∧
      has_variable st (fun _ => none) "FOO".toList .any = true ∧
      get_value st (fun _ => none) "FOO".toList "dflt".toList .any = some []) ∧
    (∃ st, construct (fun _ => none) 2 (some ["prog".toList, '-' :: '-' :: " FOO".toList])
        [] = some st ∧
      has_variable st (fun _ => none) "FOO".toList .any = true ∧
      get_value st (fun _ => none) "FOO".toList "dflt".toList .any = some []) :=
  have h := presence_only_key " FOO".toList "FOO".toList (by decide) (by decide) (by decide)
    (by decide)
  ⟨h.1 (fun p => if p = "cfg".toList then some " FOO\n".toList else none) 0 none
      "cfg".toList " FOO\n".toList (fun _ => none) "dflt".toList
      (by intro args h; cases h) (by decide) (by decide) (by decide),
   h.2 (fun _ => none) "prog".toList [] (fun _ => none) "dflt".toList⟩

/-! ## Evaluations on the specification's sample inputs -/

/-- The line `a=b=c` splits at the first `=`: key `a`, value `b=c`. -/
theorem example_first_equals :
    process_env_line [] "a=b=c".toList .env_file =
      some [("a".toList, [⟨"b=c".toList, .env_file⟩])] := by decide

/-- Only one layer of quotes is removed, and the text inside is not trimmed again. -/
theorem example_one_quote_layer :
    remove_quotes (' ' :: dquote :: squote :: " v ".toList ++ [squote, dquote, ' ']) =
      some (squote :: " v ".toList ++ [squote]) := by decide

/-- Arguments `prog --name=Alice`, file line `name=Bob`: the lookup gives `Alice`;
with only the file it gives `Bob`; a bare flag `--name` gives the empty string. -/
theorem example_cli_over_file :
    ((construct (fun p => if p = ".env".toList then some "name=Bob\n".toList else none) 2
        (some ["prog".toList, "--name=Alice".toList]) [".env".toList]).bind fun st =>
      get_value st (fun _ => none) "name".toList [] .any) = some "Alice".toList ∧
    ((construct (fun p => if p = ".env".toList then some "name=Bob\n".toList else none) 1
        (some ["prog".toList]) [".env".toList]).bind fun st =>
      get_value st (fun _ => none) "name".toList [] .any) = some "Bob".toList ∧
    ((construct (fun p => if p = ".env".toList then some "name=Bob\n".toList else none) 2
        (some ["prog".toList, "--name".toList]) [".env".toList]).bind fun st =>
      get_value st (fun _ => none) "name".toList "dflt".toList .any) = some [] := by
  refine ⟨by decide, by decide, by decide⟩

/-! ## Ingestion order -/

theorem values_of_flag_eq (arg name : Str) :
    (values_of_flag arg name).map (fun v => (⟨v, .cli_args⟩ : env_entry)) =
      keyed (cli_items [arg]) name := by
  unfold values_of_flag
  rw [load_cli_argument_eq]
  cases hf : flag_entry arg with
  | none => simp [Store.record, Store.entries, Store.find, cli_items, hf, keyed]
  | some r =>
    obtain ⟨k, v⟩ := r
    have hitems : cli_items [arg] = [(k, ⟨v, .cli_args⟩)] := by simp [cli_items, hf, tagged]
    rw [hitems, keyed_cons]
    by_cases hk : k = name
    · simp [Store.record, Store.push_back, Store.entries, Store.find, hk, keyed]
    · simp [Store.record, Store.push_back, Store.entries, Store.find, hk, keyed]

theorem values_of_flags_eq (args : List Str) (name : Str) :
    (values_of_flags args name).map (fun v => (⟨v, .cli_args⟩ : env_entry)) =
      keyed (cli_items args) name := by
  induction args with
  | nil => rfl
  | cons a rest ih =>
    have hsplit : cli_items (a :: rest) = cli_items [a] ++ cli_items rest :=
      cli_items_append [a] rest
    rw [values_of_flags, List.map_append, values_of_flag_eq, ih, hsplit, keyed_append]

/-- C11: for every argument vector, when the visited arguments record under key
`x` the values `v1 :: vs` in argument order, construction with an empty path list
succeeds, the store sequence of `x` is exactly those values in that order, each
tagged `cli_args` (nothing reordered, nothing merged), and `get_value x ""` with
source `cli_args` is `v1`. -/
theorem cli_order_preserved (fs : FileSystem) (argc : Int) (argv : List Str)
    (env : SysEnv) (x v1 : Str) (vs : List Str)
    (hvalues : values_of_flags (visited_arguments argc argv) x = v1 :: vs) :
    ∃ st, construct fs argc (some argv) [] = some st ∧
      st.find x = some ((v1 :: vs).map fun v => (⟨v, .cli_args⟩ : env_entry)) ∧
      get_value st env x [] .cli_args = some v1 := by
  refine ⟨_, construct_eq fs argc (some argv) [], ?_⟩
  have hargc : argc > 0 := by
    by_contra hn
    have h0 : argc.toNat = 0 := by omega
    simp [visited_arguments, h0, values_of_flags] at hvalues
  have hkeyed : keyed (arg_items argc (some argv) ++ path_items fs []) x =
      (v1 :: vs).map fun v => (⟨v, .cli_args⟩ : env_entry) := by
    simp only [arg_items, hargc, if_true, path_items, List.append_nil]
    rw [← values_of_flags_eq, hvalues]
  have hfind : (Store.push_all [] (arg_items argc (some argv) ++ path_items fs [])).find x =
      some ((v1 :: vs).map fun v => (⟨v, .cli_args⟩ : env_entry)) := by
    rw [find_push_all_nil, hkeyed]; simp
  refine ⟨hfind, ?_⟩
  simp [get_value, get_stored, hfind, first_value]

/-- Witness of C11: the arguments `prog --x=1 -y --x=2 --x=1` give the sequence
`1, 2, 1` and the value `1`. -/
theorem cli_order_preserved_witness :
    ∃ st, construct (fun _ => none) 5
        (some ["prog".toList, "--x=1".toList, "-y".toList, "--x=2".toList, "--x=1".toList])
        [] = some st ∧
      st.find "x".toList = some (("1".toList :: ["2".toList, "1".toList]).map
        fun v => (⟨v, .cli_args⟩ : env_entry)) ∧
      get_value st (fun _ => none) "x".toList [] .cli_args = some "1".toList :=
  cli_order_preserved (fun _ => none) 5
    ["prog".toList, "--x=1".toList, "-y".toList, "--x=2".toList, "--x=1".toList]
    (fun _ => none) "x".toList "1".toList ["2".toList, "1".toList] (by decide)

/-! ## The file tier -/

theorem recorded_entry_of_records (line k v : Str) (src : variable_source)
    (h : process_env_line [] line src = some [(k, [⟨v, src⟩])]) :
    recorded_entry line = some (k, v) := by
  rw [process_env_line_eq] at h
  cases hr : recorded_entry line with
  | none => rw [hr] at h; simp [Store.record] at h
  | some r =>
    obtain ⟨k1, v1⟩ := r
    rw [hr] at h
    simp only [Store.record, Store.push_back, Option.some.injEq, List.cons.injEq,
      Prod.mk.injEq, env_entry.mk.injEq, and_true] at h
    obtain ⟨h1, h2⟩ := h
    rw [h1, h2]

theorem records_of_recorded_entry (line k v : Str) (src : variable_source)
    (h : recorded_entry line = some (k, v)) :
    process_env_line [] line src = some [(k, [⟨v, src⟩])] := by
  rw [process_env_line_eq, h]; rfl

theorem line_items_append (xs ys : List Str) :
    line_items (xs ++ ys) = line_items xs ++ line_items ys := by
  simp [line_items]

theorem path_items_append (fs : FileSystem) (xs ys : List Str) :
    path_items fs (xs ++ ys) = path_items fs xs ++ path_items fs ys := by
  induction xs with
  | nil => rfl
  | cons p rest ih =>
    by_cases hp : p = [] <;> simp [path_items, hp, ih]

theorem keyed_line_items_nil (lines : List Str) (k : Str)
    (h : ∀ l ∈ lines, ∀ w, process_env_line [] l .env_file ≠ some [(k, [⟨w, .env_file⟩])]) :
    keyed (line_items lines) k = [] := by
  induction lines with
  | nil => rfl
  | cons l rest ih =>
    have hrest := ih fun x hx => h x (List.mem_cons_of_mem _ hx)
    cases hr : recorded_entry l with
    | none =>
      have : line_items (l :: rest) = line_items rest := by simp [line_items, hr]
      rw [this]; exact hrest
    | some r =>
      obtain ⟨k1, v1⟩ := r
      have hne : k1 ≠ k := by
        intro hk
        subst hk
        exact h l (List.mem_cons_self _ _) v1 (records_of_recorded_entry l k1 v1 _ hr)
      have : line_items (l :: rest) = (k1, ⟨v1, .env_file⟩) :: line_items rest := by
        simp [line_items, hr, tagged]
      rw [this, keyed_cons, if_neg hne]; exact hrest

theorem keyed_path_items_nil (fs : FileSystem) (paths : List Str) (k : Str)
    (h : ∀ q ∈ paths, q ≠ [] → ∀ c, fs q = some c → ∀ l ∈ getlines c, ∀ w,
      process_env_line [] l .env_file ≠ some [(k, [⟨w, .env_file⟩])]) :
    keyed (path_items fs paths) k = [] := by
  induction paths with
  | nil => rfl
  | cons p rest ih =>
    have hrest := ih fun q hq => h q (List.mem_cons_of_mem _ hq)
    by_cases hp : p = []
    · simp only [path_items, hp, ne_eq, not_true_eq_false, if_false]; exact hrest
    · simp only [path_items, hp, ne_eq, not_false_eq_true, if_true, keyed_append, hrest,
        List.append_nil]
      unfold file_items
      cases hfs : fs p with
      | none => rfl
      | some c => exact keyed_line_items_nil _ k (h p (List.mem_cons_self _ _) hp c hfs)

theorem first_value_append_of_ne (xs ys : List env_entry) (src : variable_source)
    (h : ∀ e ∈ xs, e.source ≠ src) :
    first_value (xs ++ ys) src = first_value ys src := by
  induction xs with
  | nil => rfl
  | cons e rest ih =>
    have h1 : e.source ≠ src := h e (List.mem_cons_self _ _)
    simp only [List.cons_append, first_value, h1, if_false]
    exact ih fun x hx => h x (List.mem_cons_of_mem _ hx)

theorem first_value_none_of_has_source (es : List env_entry) (src : variable_source)
    (h : has_source es src = false) : first_value es src = none := by
  induction es with
  | nil => rfl
  | cons e rest ih =>
    by_cases hs : e.source = src
    · simp [has_source, hs] at h
    · simp only [has_source, hs, if_false] at h
      simp only [first_value, hs, if_false]
      exact ih h

theorem keyed_arg_items_source (argc : Int) (argv : Option (List Str)) (k : Str) :
    ∀ e ∈ keyed (arg_items argc argv) k, e.source = .cli_args := by
  intro e he
  exact arg_items_source argc argv _ (keyed_mem _ _ _ he)

/-- The first recording line of the earliest recording file decides the
`env_file` lookup on the store built from an explicit path list. -/
theorem first_file_entry_wins (fs : FileSystem) (argc : Int)
    (argv : Option (List Str)) (env : SysEnv) (k v D : Str)
    (earlier_paths later_paths : List Str) (file_path contents : Str)
    (earlier_lines later_lines : List Str) (line : Str)
    (hearlier : ∀ q ∈ earlier_paths, q ≠ [] → ∀ c, fs q = some c → ∀ l ∈ getlines c, ∀ w,
      process_env_line [] l .env_file ≠ some [(k, [⟨w, .env_file⟩])])
    (hpath : file_path ≠ []) (hfile : fs file_path = some contents)
    (hlines : getlines contents = earlier_lines ++ line :: later_lines)
    (hfirst : ∀ l ∈ earlier_lines, ∀ w,
      process_env_line [] l .env_file ≠ some [(k, [⟨w, .env_file⟩])])
    (hrecords : process_env_line [] line .env_file = some [(k, [⟨v, .env_file⟩])]) :
    ∃ st, construct fs argc argv (earlier_paths ++ file_path :: later_paths) = some st ∧
      get_value st env k D .env_file = some v ∧
      (has_variable st env k .cli_args = false → get_value st env k D .any = some v) := by
  refine ⟨_, construct_eq fs argc argv _, ?_⟩
  have hre := recorded_entry_of_records line k v _ hrecords
  have hline : line_items (line :: later_lines) =
      (k, ⟨v, .env_file⟩) :: line_items later_lines := by
    simp [line_items, hre, tagged]
  have hfileitems : keyed (file_items fs file_path) k =
      ⟨v, .env_file⟩ :: keyed (line_items later_lines) k := by
    simp only [file_items, hfile, hlines, line_items_append, keyed_append,
      keyed_line_items_nil earlier_lines k hfirst, hline, keyed_cons, if_true,
      List.nil_append]
  have hpaths : keyed (path_items fs (earlier_paths ++ file_path :: later_paths)) k =
      ⟨v, .env_file⟩ ::
        (keyed (line_items later_lines) k ++ keyed (path_items fs later_paths) k) := by
    rw [path_items_append, keyed_append, keyed_path_items_nil fs earlier_paths k hearlier]
    simp only [path_items, hpath, ne_eq, not_false_eq_true, if_true, keyed_append,
      hfileitems, List.nil_append, List.cons_append]
  have hcli : ∀ e ∈ keyed (arg_items argc argv) k, e.source ≠ .env_file := fun e he => by
    rw [keyed_arg_items_source argc argv k e he]; decide
  have hfind : (Store.push_all []
      (arg_items argc argv ++ path_items fs (earlier_paths ++ file_path :: later_paths))).find k
      = some (keyed (arg_items argc argv) k ++ ⟨v, .env_file⟩ ::
        (keyed (line_items later_lines) k ++ keyed (path_items fs later_paths) k)) := by
    rw [find_push_all_nil, keyed_append, hpaths]; simp
  have hfv : first_value (keyed (arg_items argc argv) k ++ ⟨v, .env_file⟩ ::
        (keyed (line_items later_lines) k ++ keyed (path_items fs later_paths) k)) .env_file
      = some v := by
    rw [first_value_append_of_ne _ _ _ hcli]; simp [first_value]
  constructor
  · simp [get_value, get_stored, hfind, hfv]
  · intro hno
    have hsrc : has_source (keyed (arg_items argc argv) k ++ ⟨v, .env_file⟩ ::
        (keyed (line_items later_lines) k ++ keyed (path_items fs later_paths) k)) .cli_args
        = false := by
      simpa [has_variable, hfind] using hno
    have hnone := first_value_none_of_has_source _ _ hsrc
    simp [get_value, get_stored, hfind, hfv, hnone]

theorem get_executable_dir_ne_nil (exe_path relative r : Str)
    (h : get_executable_dir exe_path relative = some r) (hrel : relative ≠ []) : r ≠ [] := by
  unfold get_executable_dir at h
  cases hl : find_last_of exe_path ['/', '\\'] with
  | none =>
    rw [hl] at h
    simp only [Option.some.injEq] at h
    rw [← h]; exact hrel
  | some last_sep =>
    rw [hl] at h
    simp only [substr, Nat.not_lt_zero, gt_iff_lt, if_false, Option.map_some',
      Option.some.injEq] at h
    rw [← h]
    intro hnil
    exact hrel (List.append_eq_nil.mp hnil).2

theorem construct_default_eq (fs : FileSystem) (exe_path : Str) (argc : Int)
    (argv : Option (List Str)) :
    ∃ exe_env, get_executable_dir exe_path ".env".toList = some exe_env ∧ exe_env ≠ [] ∧
      default_env_paths exe_path = some [".env".toList, exe_env] ∧
      construct_default fs exe_path argc argv =
        construct fs argc argv [".env".toList, exe_env] := by
  have htotal : ∃ r, get_executable_dir exe_path ".env".toList = some r := by
    unfold get_executable_dir
    cases find_last_of exe_path ['/', '\\'] with
    | none => exact ⟨".env".toList, rfl⟩
    | some last_sep =>
      exact ⟨exe_path.take (last_sep + 1) ++ ".env".toList, by simp [substr]⟩
  obtain ⟨r, hr⟩ := htotal
  refine ⟨r, hr, get_executable_dir_ne_nil exe_path _ r hr (by decide), ?_, ?_⟩
  · unfold default_env_paths
    rw [hr]; rfl
  · unfold construct_default default_env_paths
    rw [hr]; rfl

/-- C12: within the file tier the earliest definition wins.
(1) For every path list, file system and argument vector: let `file_path` be the
earliest non-empty, openable path whose file has a line recording key `k` (no
line of any earlier path's file records `k`), and let `line` be the first line of
that file recording `k`, with value `v`. Then construction succeeds, `get_value k
D` with source `env_file` is `v`, and when the store has no `cli_args` entry for
`k` the unfiltered `get_value k D` is `v` too.
(2) The default path list is the current-directory `.env` followed by the
executable-directory `.env`, and construction with the path argument omitted is
construction with that list.
(3) Hence, with the path argument omitted, when the current-directory `.env`
records `k`, its first recording line decides both lookups, whatever the
executable-directory `.env` holds.
(4) And when the current-directory `.env` records nothing under `k` while the
executable-directory `.env` does, the first recording line of the latter decides.
"Line `l` records `(k, w)`" is: `process_env_line` on `l` from the empty store
yields the store with the single entry `w` under `k`. -/
theorem earliest_file_definition_wins :
    (∀ (fs : FileSystem) (argc : Int) (argv : Option (List Str)) (env : SysEnv)
        (k v D : Str) (earlier_paths later_paths : List Str) (file_path contents : Str)
        (earlier_lines later_lines : List Str) (line : Str),
      (∀ q ∈ earlier_paths, q ≠ [] → ∀ c, fs q = some c → ∀ l ∈ getlines c, ∀ w,
        process_env_line [] l .env_file ≠ some [(k, [⟨w, .env_file⟩])]) →
      file_path ≠ [] → fs file_path = some contents →
      getlines contents = earlier_lines ++ line :: later_lines →
      (∀ l ∈ earlier_lines, ∀ w,
        process_env_line [] l .env_file ≠ some [(k, [⟨w, .env_file⟩])]) →
      process_env_line [] line .env_file = some [(k, [⟨v, .env_file⟩])] →
      ∃ st, construct fs argc argv (earlier_paths ++ file_path :: later_paths) = some st ∧
        get_value st env k D .env_file = some v ∧
        (has_variable st env k .cli_args = false → get_value st env k D .any = some v)) ∧
    (∀ (fs : FileSystem) (exe_path : Str) (argc : Int) (argv : Option (List Str)),
      ∃ exe_env, get_executable_dir exe_path ".env".toList = some exe_env ∧
        default_env_paths exe_path = some [get_current_dir ".env".toList, exe_env] ∧
        construct_default fs exe_path argc argv =
          construct fs argc argv [get_current_dir ".env".toList, exe_env]) ∧
    (∀ (fs : FileSystem) (exe_path : Str) (argc : Int) (argv : Option (List Str))
        (env : SysEnv) (k v D contents : Str) (earlier_lines later_lines : List Str)
        (line : Str),
      fs ".env".toList = some contents →
      getlines contents = earlier_lines ++ line :: later_lines →
      (∀ l ∈ earlier_lines, ∀ w,
        process_env_line [] l .env_file ≠ some [(k, [⟨w, .env_file⟩])]) →
      process_env_line [] line .env_file = some [(k, [⟨v, .env_file⟩])] →
      ∃ st, construct_default fs exe_path argc argv = some st ∧
        get_value st env k D .env_file = some v ∧
        (has_variable st env k .cli_args = false → get_value st env k D .any = some v)) ∧
    (∀ (fs : FileSystem) (exe_path exe_env : Str) (argc : Int) (argv : Option (List Str))
        (env : SysEnv) (k v D contents : Str) (earlier_lines later_lines : List Str)
        (line : Str),
      get_executable_dir exe_path ".env".toList = some exe_env →
      (∀ c, fs ".env".toList = some c → ∀ l ∈ getlines c, ∀ w,
        process_env_line [] l .env_file ≠ some [(k, [⟨w, .env_file⟩])]) →
      fs exe_env = some contents →
      getlines contents = earlier_lines ++ line :: later_lines →
      (∀ l ∈ earlier_lines, ∀ w,
        process_env_line [] l .env_file ≠ some [(k, [⟨w, .env_file⟩])]) →
      process_env_line [] line .env_file = some [(k, [⟨v, .env_file⟩])] →
      ∃ st, construct_default fs exe_path argc argv = some st ∧
        get_value st env k D .env_file = some v ∧
        (has_variable st env k .cli_args = false → get_value st env k D .any = some v)) := by
  refine ⟨?_, ?_, ?_, ?_⟩
  · intro fs argc argv env k v D earlier_paths later_paths file_path contents earlier_lines
      later_lines line hearlier hpath hfile hlines hfirst hrecords
    exact first_file_entry_wins fs argc argv env k v D earlier_paths later_paths file_path
      contents earlier_lines later_lines line hearlier hpath hfile hlines hfirst hrecords
  · intro fs exe_path argc argv
    obtain ⟨exe_env, h1, _, h3, h4⟩ := construct_default_eq fs exe_path argc argv
    exact ⟨exe_env, h1, h3, h4⟩
  · intro fs exe_path argc argv env k v D contents earlier_lines later_lines line hfile hlines
      hfirst hrecords
    obtain ⟨exe_env, _, _, _, h4⟩ := construct_default_eq fs exe_path argc argv
    rw [h4]
    exact first_file_entry_wins fs argc argv env k v D [] [exe_env] ".env".toList contents
      earlier_lines later_lines line (by intro q hq; cases hq) (by decide) hfile hlines hfirst
      hrecords
  · intro fs exe_path exe_env argc argv env k v D contents earlier_lines later_lines line hexe
      hcwd hfile hlines hfirst hrecords
    obtain ⟨r, h1, h2, _, h4⟩ := construct_default_eq fs exe_path argc argv
    have hr : r = exe_env := by rw [h1] at hexe; exact Option.some.inj hexe
    subst hr
    rw [h4]
    exact first_file_entry_wins fs argc argv env k v D [".env".toList] [] r contents
      earlier_lines later_lines line
      (by
        intro q hq _ c hc
        have hq1 : q = ".env".toList := by simpa using hq
        subst hq1
        exact hcwd c hc)
      h2 hfile hlines hfirst hrecords

/-- Witness of C12. An explicit list `.env`, `/opt/.env`: `.env` defines `name`
twice after a comment, `/opt/.env` defines it again; the first line of the first
file wins. With the path argument omitted and the binary at `/opt/app`: the
current-directory `.env` wins over `/opt/.env`; and when the current-directory
`.env` holds only another key, `/opt/.env` decides. -/
theorem earliest_file_definition_wins_witness :
    (∃ st, construct
        (fun p => if p = ".env".toList then some "#c\nname=Bob\nname=Rob\n".toList
          else if p = "/opt/.env".toList then some "name=Zed\n".toList else none)
        1 (some ["prog".toList]) ([] ++ ".env".toList :: ["/opt/.env".toList]) = some st ∧
      get_value st (fun _ => none) "name".toList [] .env_file = some "Bob".toList ∧
      (has_variable st (fun _ => none) "name".toList .cli_args = false →
        get_value st (fun _ => none) "name".toList [] .any = some "Bob".toList)) ∧
    (∃ st, construct_default
        (fun p => if p = ".env".toList then some "name=Bob\n".toList
          else if p = "/opt/.env".toList then some "name=Zed\n".toList else none)
        "/opt/app".toList 1 (some ["prog".toList]) = some st ∧
      get_value st (fun _ => none) "name".toList [] .env_file = some "Bob".toList ∧
      (has_variable st (fun _ => none) "name".toList .cli_args = false →
        get_value st (fun _ => none) "name".toList [] .any = some "Bob".toList)) ∧
    (∃ st, construct_default
        (fun p => if p = ".env".toList then some "other=1\n".toList
          else if p = "/opt/.env".toList then some "name=Zed\n".toList else none)
        "/opt/app".toList 1 (some ["prog".toList]) = some st ∧
      get_value st (fun _ => none) "name".toList [] .env_file = some "Zed".toList ∧
      (has_variable st (fun _ => none) "name".toList .cli_args = false →
        get_value st (fun _ => none) "name".toList [] .any = some "Zed".toList)) :=
  ⟨earliest_file_definition_wins.1
      (fun p => if p = ".env".toList then some "#c\nname=Bob\nname=Rob\n".toList
        else if p = "/opt/.env".toList then some "name=Zed\n".toList else none)
      1 (some ["prog".toList]) (fun _ => none) "name".toList "Bob".toList []
      [] ["/opt/.env".toList] ".env".toList "#c\nname=Bob\nname=Rob\n".toList
      ["#c".toList] ["name=Rob".toList] "name=Bob".toList
      (by intro q hq; cases hq) (by decide) (by decide) (by decide)
      (by
        intro l hl w
        have hl1 : l = "#c".toList := by simpa using hl
        have hrun : process_env_line [] "#c".toList .env_file = some [] := by decide
        rw [hl1, hrun]
        simp)
      (by decide),
   earliest_file_definition_wins.2.2.1
      (fun p => if p = ".env".toList then some "name=Bob\n".toList
        else if p = "/opt/.env".toList then some "name=Zed\n".toList else none)
      "/opt/app".toList 1 (some ["prog".toList]) (fun _ => none) "name".toList "Bob".toList []
      "name=Bob\n".toList [] [] "name=Bob".toList
      (by decide) (by decide) (by intro l hl; cases hl) (by decide),
   earliest_file_definition_wins.2.2.2
      (fun p => if p = ".env".toList then some "other=1\n".toList
        else if p = "/opt/.env".toList then some "name=Zed\n".toList else none)
      "/opt/app".toList "/opt/.env".toList 1 (some ["prog".toList]) (fun _ => none)
      "name".toList "Zed".toList [] "name=Zed\n".toList [] [] "name=Zed".toList
      (by decide)
      (by
        intro c hc l hl w
        have hc1 : c = "other=1\n".toList := by
          have h0 : (if ".env".toList = ".env".toList then some "other=1\n".toList
            else if ".env".toList = "/opt/.env".toList then some "name=Zed\n".toList
            else none) = some c := hc
          rw [if_pos rfl] at h0
          exact (Option.some.inj h0).symm
        subst hc1
        have hlines : getlines "other=1\n".toList = ["other=1".toList] := by decide
        rw [hlines] at hl
        have hl1 : l = "other=1".toList := by simpa using hl
        have hrun : process_env_line [] "other=1".toList .env_file
            = some [("other".toList, [⟨"1".toList, .env_file⟩])] := by decide
        rw [hl1, hrun]
        intro heq
        simp only [Option.some.injEq, List.cons.injEq, Prod.mk.injEq] at heq
        exact absurd heq.1.1 (by decide))
      (by decide) (by decide) (by intro l hl; cases hl) (by decide)⟩

/-! ## The path list and empty keys -/

/-- C13, refuted at a concrete input: with a current-directory `.env` holding
`a=1`, the store built from an explicitly empty path list has no key `a`, while
the store built with the path argument omitted (the default list) has it; the
two stores differ. -/
theorem empty_path_list_not_default :
    (construct (fun p => if p = ".env".toList then some "a=1".toList else none)
        0 none []).map (fun st => st.find "a".toList) = some none ∧
    (construct_default (fun p => if p = ".env".toList then some "a=1".toList else none)
        "/bin/app".toList 0 none).map (fun st => st.find "a".toList)
      = some (some [⟨"1".toList, .env_file⟩]) ∧
    construct (fun p => if p = ".env".toList then some "a=1".toList else none) 0 none [] ≠
      construct_default (fun p => if p = ".env".toList then some "a=1".toList else none)
        "/bin/app".toList 0 none := by
  refine ⟨by decide, by decide, by decide⟩

/-- C13 as amended: for every argument vector and file system, construction with
an explicitly empty path list succeeds and reads no file: the store is the one
the argument stage alone produces, it is the same under every file system, and
no key has an `env_file` entry. The two default paths apply when the path
argument is omitted: that call is construction with the list of the
current-directory `.env` followed by the executable-directory `.env`. -/
theorem empty_path_list_loads_no_file (fs : FileSystem) (argc : Int)
    (argv : Option (List Str)) :
    ∃ st, construct fs argc argv [] = some st ∧
      (match argv with
       | some args => if argc > 0 then load_cli_arguments [] argc args else some []
       | none => some []) = some st ∧
      (∀ other : FileSystem, construct other argc argv [] = some st) ∧
      (∀ (env : SysEnv) (key : Str), has_variable st env key .env_file = false) ∧
      ∀ exe_path : Str, ∃ exe_env,
        get_executable_dir exe_path ".env".toList = some exe_env ∧
        construct_default fs exe_path argc argv =
          construct fs argc argv [get_current_dir ".env".toList, exe_env] := by
  have hitems : ∀ f : FileSystem, arg_items argc argv ++ path_items f [] = arg_items argc argv :=
    fun f => by simp [path_items]
  refine ⟨Store.push_all [] (arg_items argc argv), ?_, ?_, ?_, ?_, ?_⟩
  · rw [construct_eq, hitems]
  · cases argv with
    | none => rfl
    | some args =>
      by_cases h : argc > 0
      · simp [h, load_cli_arguments, load_cli_arguments_loop_eq, arg_items]
      · simp [h, arg_items, Store.push_all]
  · intro other
    rw [construct_eq, hitems]
  · intro env key
    unfold has_variable
    cases hf : (Store.push_all [] (arg_items argc argv)).find key with
    | none => simp
    | some es =>
      have hes : es = keyed (arg_items argc argv) key := by
        rw [find_push_all_nil] at hf
        by_cases hk : keyed (arg_items argc argv) key = []
        · simp [hk] at hf
        · simpa [hk] using hf.symm
      have : has_source es .env_file = false :=
        has_source_false_of_forall es _ fun e he => by
          rw [hes] at he
          rw [keyed_arg_items_source argc argv key e he]; decide
      simp [this]
  · intro exe_path
    obtain ⟨exe_env, h1, _, _, h4⟩ := construct_default_eq fs exe_path argc argv
    exact ⟨exe_env, h1, h4⟩

theorem key_part_eq (line : Str) :
    (match find line '=' with
     | some p => line.take p
     | none => line) = spec_key_part line := by
  induction line with
  | nil => rfl
  | cons c cs ih =>
    by_cases hc : c = '='
    · simp [find, spec_key_part, hc]
    · cases hf : find cs '=' with
      | none =>
        rw [hf] at ih
        simp only [find, hc, if_false, hf, Option.map_none', Option.map_some', spec_key_part,
          List.take_succ_cons]
        rw [List.takeWhile_cons_of_pos (by simpa using hc)]
        exact congrArg (c :: ·) ih
      | some p =>
        rw [hf] at ih
        simp only [find, hc, if_false, hf, Option.map_none', Option.map_some', spec_key_part,
          List.take_succ_cons]
        rw [List.takeWhile_cons_of_pos (by simpa using hc)]
        exact congrArg (c :: ·) ih

theorem recorded_entry_empty_key (line : Str) (h : spec_trim (spec_key_part line) = []) :
    recorded_entry line = none := by
  unfold recorded_entry
  by_cases h0 : line = [] ∨ line.head? = some '#'
  · simp [h0]
  · have hk := key_part_eq line
    simp only [h0, if_false]
    cases hf : find line '=' with
    | none =>
      rw [hf] at hk
      simp only at hk
      rw [← hk] at h
      simp [h]
    | some p =>
      rw [hf] at hk
      simp only at hk
      rw [← hk] at h
      simp [h]

theorem recorded_entry_key_ne (line k v : Str) (h : recorded_entry line = some (k, v)) :
    k ≠ [] := by
  unfold recorded_entry at h
  by_cases h0 : line = [] ∨ line.head? = some '#'
  · simp [h0] at h
  · simp only [h0, if_false] at h
    cases hf : find line '=' with
    | none =>
      rw [hf] at h
      by_cases hk : spec_trim line = []
      · simp [hk] at h
      · simp only [ne_eq, hk, not_false_eq_true, if_true, Option.some.injEq,
          Prod.mk.injEq] at h
        rw [← h.1]; exact hk
    | some p =>
      rw [hf] at h
      by_cases hk : spec_trim (line.take p) = []
      · simp [hk] at h
      · simp only [ne_eq, hk, not_false_eq_true, if_true, Option.some.injEq,
          Prod.mk.injEq] at h
        rw [← h.1]; exact hk

theorem cli_items_key_ne (args : List Str) : ∀ i ∈ cli_items args, i.1 ≠ [] := by
  intro i hi
  simp only [cli_items, List.mem_filterMap, Option.map_eq_some'] at hi
  obtain ⟨a, _, r, hr, rfl⟩ := hi
  unfold flag_entry at hr
  by_cases h2 : a.take 2 = ['-', '-']
  · simp only [h2, if_true] at hr
    exact recorded_entry_key_ne _ r.1 r.2 hr
  · simp [h2] at hr

theorem line_items_key_ne (lines : List Str) : ∀ i ∈ line_items lines, i.1 ≠ [] := by
  intro i hi
  simp only [line_items, List.mem_filterMap, Option.map_eq_some'] at hi
  obtain ⟨l, _, r, hr, rfl⟩ := hi
  exact recorded_entry_key_ne _ r.1 r.2 hr

theorem path_items_key_ne (fs : FileSystem) (paths : List Str) :
    ∀ i ∈ path_items fs paths, i.1 ≠ [] := by
  induction paths with
  | nil => intro i hi; simp [path_items] at hi
  | cons p rest ih =>
    intro i hi
    by_cases hp : p = []
    · simp only [path_items, hp, ne_eq, not_true_eq_false, if_false] at hi
      exact ih i hi
    · simp only [path_items, hp, ne_eq, not_false_eq_true, if_true, List.mem_append] at hi
      rcases hi with hi | hi
      · unfold file_items at hi
        cases hfs : fs p with
        | none => simp [hfs] at hi
        | some c => rw [hfs] at hi; exact line_items_key_ne _ i hi
      · exact ih i hi

theorem built_items_key_ne (fs : FileSystem) (argc : Int) (argv : Option (List Str))
    (env_paths : List Str) :
    ∀ i ∈ arg_items argc argv ++ path_items fs env_paths, i.1 ≠ [] := by
  intro i hi
  rcases List.mem_append.mp hi with hi | hi
  · unfold arg_items at hi
    cases argv with
    | none => simp at hi
    | some args =>
      by_cases h : argc > 0
      · simp only [h, if_true] at hi; exact cli_items_key_ne _ i hi
      · simp [h] at hi
  · exact path_items_key_ne fs env_paths i hi

/-- C14: for every store, line and source, when the key part of the line (the
text before the first `=`, or the whole line when it holds no `=`) trims to the
empty string, `process_env_line` returns the store unchanged; and on every store
the constructor builds, `has_variable ""` is false with source `cli_args` and
with source `env_file`. -/
theorem empty_key_never_stored :
    (∀ (st : Store) (line : Str) (src : variable_source),
      spec_trim (spec_key_part line) = [] → process_env_line st line src = some st) ∧
    (∀ (fs : FileSystem) (argc : Int) (argv : Option (List Str)) (env_paths : List Str),
      ∃ st, construct fs argc argv env_paths = some st ∧
        ∀ env : SysEnv, has_variable st env [] .cli_args = false ∧
          has_variable st env [] .env_file = false) := by
  constructor
  · intro st line src h
    rw [process_env_line_eq, recorded_entry_empty_key line h]; rfl
  · intro fs argc argv env_paths
    refine ⟨_, construct_eq fs argc argv env_paths, ?_⟩
    intro env
    have hkeyed : keyed (arg_items argc argv ++ path_items fs env_paths) [] = [] := by
      cases hk : keyed (arg_items argc argv ++ path_items fs env_paths) [] with
      | nil => rfl
      | cons e rest =>
        have hmem : e ∈ keyed (arg_items argc argv ++ path_items fs env_paths) [] := by
          rw [hk]; exact List.mem_cons_self _ _
        exact absurd rfl (built_items_key_ne fs argc argv env_paths _ (keyed_mem _ _ _ hmem))
    simp [has_variable, find_push_all_nil, hkeyed]

/-- Witness of C14: the lines `=value` and `  = x` leave a store unchanged. -/
theorem empty_key_never_stored_witness :
    process_env_line [("a".toList, [⟨"1".toList, .env_file⟩])] "=value".toList .cli_args
      = some [("a".toList, [⟨"1".toList, .env_file⟩])] ∧
    process_env_line [("a".toList, [⟨"1".toList, .env_file⟩])] "  = x".toList .env_file
      = some [("a".toList, [⟨"1".toList, .env_file⟩])] :=
  ⟨empty_key_never_stored.1 [("a".toList, [⟨"1".toList, .env_file⟩])] "=value".toList
      .cli_args (by decide),
   empty_key_never_stored.1 [("a".toList, [⟨"1".toList, .env_file⟩])] "  = x".toList
      .env_file (by decide)⟩

/-! ## Argument ingestion and path resolution -/

theorem isPrefixOf_dashes (a : Str) :
    List.isPrefixOf ['-', '-'] a = true ↔ a.take 2 = ['-', '-'] := by
  cases a with
  | nil => simp [List.isPrefixOf]
  | cons c cs =>
    cases cs with
    | nil => simp [List.isPrefixOf]
    | cons d ds =>
      simp only [List.isPrefixOf, Bool.and_eq_true, beq_iff_eq, Bool.and_true, List.take,
        List.cons.injEq, and_true]
      constructor
      · rintro ⟨h1, h2⟩; exact ⟨h1.symm, h2.symm⟩
      · rintro ⟨h1, h2⟩; exact ⟨h1.symm, h2.symm⟩

theorem load_cli_argument_not_flag (st : Store) (a : Str)
    (h : List.isPrefixOf ['-', '-'] a = false) : load_cli_argument st a = some st := by
  have h2 : ¬ a.take 2 = ['-', '-'] := fun e => by
    rw [(isPrefixOf_dashes a).mpr e] at h; cases h
  rw [load_cli_argument_eq, flag_entry, if_neg h2]; rfl

theorem load_cli_argument_flag (st : Store) (a : Str)
    (h : List.isPrefixOf ['-', '-'] a = true) :
    load_cli_argument st a = process_env_line st (a.drop 2) .cli_args := by
  have h2 : a.take 2 = ['-', '-'] := (isPrefixOf_dashes a).mp h
  rw [load_cli_argument_eq, process_env_line_eq, flag_entry, if_pos h2]

theorem load_cli_arguments_loop_refines (st : Store) (args : List Str) :
    load_cli_arguments_loop st args =
      List.foldlM (fun s l => process_env_line s l .cli_args) st
        (spec_flag_remainders args) := by
  induction args generalizing st with
  | nil => rfl
  | cons a rest ih =>
    cases h : List.isPrefixOf ['-', '-'] a with
    | false =>
      have hsp : spec_flag_remainders (a :: rest) = spec_flag_remainders rest := by
        simp [spec_flag_remainders, h]
      rw [hsp, load_cli_arguments_loop, load_cli_argument_not_flag st a h]
      exact ih st
    | true =>
      have hsp : spec_flag_remainders (a :: rest) = a.drop 2 :: spec_flag_remainders rest := by
        simp [spec_flag_remainders, h]
      rw [hsp, load_cli_arguments_loop, load_cli_argument_flag st a h, List.foldlM_cons]
      cases hp : process_env_line st (a.drop 2) .cli_args with
      | none => rfl
      | some st1 => exact ih st1

/-- C15: for every store and argument vector, `load_cli_arguments` equals
applying `process_env_line` with source `cli_args`, in argument order, to the
text after the first two characters of exactly those elements among
`argv[1], ..., argv[argc - 1]` that begin with `--`, and it succeeds; `argv[0]`
does not influence the result, and an element that does not begin with `--`
(one shorter than two characters included) leaves the store as it is. -/
theorem cli_ingestion_refines (st : Store) (argc : Int) (argv : List Str) :
    load_cli_arguments st argc argv =
      List.foldlM (fun s l => process_env_line s l .cli_args) st
        (spec_flag_remainders ((argv.take argc.toNat).drop 1)) ∧
    (∃ st1, load_cli_arguments st argc argv = some st1) ∧
    (∀ (first other : Str) (rest : List Str),
      load_cli_arguments st argc (first :: rest) = load_cli_arguments st argc (other :: rest)) ∧
    (∀ a : Str, List.isPrefixOf ['-', '-'] a = false → load_cli_argument st a = some st) := by
  refine ⟨?_, ?_, ?_, ?_⟩
  · exact load_cli_arguments_loop_refines st _
  · exact ⟨_, load_cli_arguments_loop_eq st _⟩
  · intro first other rest
    unfold load_cli_arguments visited_arguments
    cases argc.toNat with
    | zero => rfl
    | succ n => rfl
  · exact fun a h => load_cli_argument_not_flag st a h

/-- Witness of C15: the arguments `-`, `x` and the empty string leave a store
as it is. -/
theorem cli_ingestion_refines_witness :
    load_cli_argument [("a".toList, [⟨"1".toList, .env_file⟩])] "-".toList
      = some [("a".toList, [⟨"1".toList, .env_file⟩])] ∧
    load_cli_argument [("a".toList, [⟨"1".toList, .env_file⟩])] "x".toList
      = some [("a".toList, [⟨"1".toList, .env_file⟩])] ∧
    load_cli_argument [("a".toList, [⟨"1".toList, .env_file⟩])] []
      = some [("a".toList, [⟨"1".toList, .env_file⟩])] :=
  have h := (cli_ingestion_refines [("a".toList, [⟨"1".toList, .env_file⟩])] 3
    ["p".toList, "-".toList, "x".toList]).2.2.2
  ⟨h "-".toList (by decide), h "x".toList (by decide), h [] (by decide)⟩

theorem find_last_of_none (p set : Str) (h : ∀ c ∈ p, c ∉ set) :
    find_last_of p set = none := by
  induction p with
  | nil => rfl
  | cons c cs ih =>
    have hc : c ∉ set := h c (List.mem_cons_self _ _)
    have hcs := ih fun x hx => h x (List.mem_cons_of_mem _ hx)
    simp [find_last_of, hcs, hc]

theorem find_last_of_append (dir name set : Str) (sep : Char) (hsep : sep ∈ set)
    (h : ∀ c ∈ name, c ∉ set) :
    find_last_of (dir ++ sep :: name) set = some dir.length := by
  induction dir with
  | nil => simp [find_last_of, find_last_of_none name set h, hsep]
  | cons d ds ih => simp [find_last_of, ih]

/-- C16: with `p` the path the platform reports for the binary:
`get_executable_dir` returns `relative` unchanged when `p` is empty and when `p`
holds neither `/` nor a backslash; when `p` is `dir ++ [sep] ++ name` with `sep` a
separator and no separator in `name` (so `sep` is the last one), it returns
`dir ++ [sep] ++ relative`; and `get_current_dir` returns `relative` unchanged. -/
theorem path_resolution :
    (∀ relative : Str, get_executable_dir [] relative = some relative) ∧
    (∀ p relative : Str, (∀ c ∈ p, c ≠ '/' ∧ c ≠ '\\') →
      get_executable_dir p relative = some relative) ∧
    (∀ (dir name relative : Str) (sep : Char), (sep = '/' ∨ sep = '\\') →
      (∀ c ∈ name, c ≠ '/' ∧ c ≠ '\\') →
      get_executable_dir (dir ++ sep :: name) relative = some (dir ++ [sep] ++ relative)) ∧
    (∀ relative : Str, get_current_dir relative = relative) := by
  refine ⟨fun _ => rfl, ?_, ?_, fun _ => rfl⟩
  · intro p relative h
    have hnone : find_last_of p ['/', '\\'] = none :=
      find_last_of_none p _ fun c hc => by
        have := h c hc
        simp [this.1, this.2]
    simp [get_executable_dir, hnone]
  · intro dir name relative sep hsep h
    have hmem : sep ∈ ['/', '\\'] := by rcases hsep with e | e <;> simp [e]
    have hlast : find_last_of (dir ++ sep :: name) ['/', '\\'] = some dir.length :=
      find_last_of_append dir name _ sep hmem fun c hc => by
        have := h c hc
        simp [this.1, this.2]
    simp [get_executable_dir, hlast, substr, List.take_append_eq_append_take]

/-- Witness of C16: a path with several separators, and a bare name. -/
theorem path_resolution_witness :
    get_executable_dir ("/usr/bin".toList ++ '/' :: "app".toList) ".env".toList
      = some ("/usr/bin".toList ++ ['/'] ++ ".env".toList) ∧
    get_executable_dir "app".toList ".env".toList = some ".env".toList :=
  ⟨path_resolution.2.2.1 "/usr/bin".toList "app".toList ".env".toList '/' (Or.inl rfl)
      (by decide),
   path_resolution.2.1 "app".toList ".env".toList (by decide)⟩

/-! ## The store invariant -/

theorem well_formed_push_back (st : Store) (key : Str) (e : env_entry)
    (hst : st.well_formed = true) (he : e.source = .cli_args ∨ e.source = .env_file) :
    (st.push_back key e).well_formed = true := by
  induction st with
  | nil => simp [Store.push_back, Store.well_formed, entries_tagged, he]
  | cons kv rest ih =>
    obtain ⟨k, es⟩ := kv
    simp only [Store.well_formed, List.all_cons, Bool.and_eq_true] at hst
    obtain ⟨⟨h1, h2⟩, h3⟩ := hst
    by_cases hk : k = key
    · simp only [Store.push_back, hk, if_true, Store.well_formed, List.all_cons,
        Bool.and_eq_true]
      refine ⟨⟨by simp, ?_⟩, h3⟩
      simp only [entries_tagged, List.all_append, Bool.and_eq_true] at h2 ⊢
      exact ⟨h2, by simp [he]⟩
    · simp only [Store.push_back, hk, if_false, Store.well_formed, List.all_cons,
        Bool.and_eq_true]
      exact ⟨⟨h1, h2⟩, ih h3⟩

theorem well_formed_record (st : Store) (r : Option (Str × Str)) (src : variable_source)
    (hst : st.well_formed = true) (hsrc : src = .cli_args ∨ src = .env_file) :
    (st.record r src).well_formed = true := by
  cases r with
  | none => exact hst
  | some kv => exact well_formed_push_back st kv.1 ⟨kv.2, src⟩ hst hsrc

theorem well_formed_push_all (st : Store) (items : List (Str × env_entry))
    (hst : st.well_formed = true)
    (hitems : ∀ i ∈ items, i.2.source = .cli_args ∨ i.2.source = .env_file) :
    (st.push_all items).well_formed = true := by
  induction items generalizing st with
  | nil => exact hst
  | cons i rest ih =>
    exact ih _ (well_formed_push_back st i.1 i.2 hst (hitems i (List.mem_cons_self _ _)))
      fun x hx => hitems x (List.mem_cons_of_mem _ hx)

theorem well_formed_find (st : Store) (hst : st.well_formed = true) (key : Str)
    (es : List env_entry) (hf : st.find key = some es) :
    es ≠ [] ∧ ∀ e ∈ es, e.source = .cli_args ∨ e.source = .env_file := by
  induction st with
  | nil => simp [Store.find] at hf
  | cons kv rest ih =>
    obtain ⟨k, es1⟩ := kv
    simp only [Store.well_formed, List.all_cons, Bool.and_eq_true] at hst
    obtain ⟨⟨h1, h2⟩, h3⟩ := hst
    by_cases hk : k = key
    · simp only [Store.find, hk, if_true, Option.some.injEq] at hf
      subst hf
      constructor
      · intro hnil; simp [hnil] at h1
      · intro e he
        simp only [entries_tagged, List.all_eq_true, decide_eq_true_eq] at h2
        exact h2 e he
    · simp only [Store.find, hk, if_false] at hf
      exact ih h3 hf

/-- C17: the empty store satisfies the invariant (every key maps to a non-empty
sequence whose entries are all tagged `cli_args` or `env_file`); each ingestion
step the constructor makes, `process_env_line` with either tag,
`load_cli_arguments` and `load_env_file`, succeeds and keeps it; hence every
store the constructor builds satisfies it: each key found maps to a non-empty
sequence and no entry is tagged `system_env` or `any`. -/
theorem store_invariant :
    Store.well_formed [] = true ∧
    (∀ (st : Store) (line : Str), st.well_formed = true →
      ∃ st1, process_env_line st line .cli_args = some st1 ∧ st1.well_formed = true) ∧
    (∀ (st : Store) (line : Str), st.well_formed = true →
      ∃ st1, process_env_line st line .env_file = some st1 ∧ st1.well_formed = true) ∧
    (∀ (st : Store) (argc : Int) (argv : List Str), st.well_formed = true →
      ∃ st1, load_cli_arguments st argc argv = some st1 ∧ st1.well_formed = true) ∧
    (∀ (fs : FileSystem) (st : Store) (file_path : Str), st.well_formed = true →
      ∃ st1, load_env_file fs st file_path = some st1 ∧ st1.well_formed = true) ∧
    (∀ (fs : FileSystem) (argc : Int) (argv : Option (List Str)) (env_paths : List Str),
      ∃ st, construct fs argc argv env_paths = some st ∧ st.well_formed = true ∧
        ∀ (key : Str) (es : List env_entry), st.find key = some es →
          es ≠ [] ∧ ∀ e ∈ es, e.source ≠ .system_env ∧ e.source ≠ .any ∧
            (e.source = .cli_args ∨ e.source = .env_file)) := by
  refine ⟨rfl, ?_, ?_, ?_, ?_, ?_⟩
  · intro st line hst
    exact ⟨_, process_env_line_eq st line _, well_formed_record st _ _ hst (Or.inl rfl)⟩
  · intro st line hst
    exact ⟨_, process_env_line_eq st line _, well_formed_record st _ _ hst (Or.inr rfl)⟩
  · intro st argc argv hst
    exact ⟨_, load_cli_arguments_loop_eq st _,
      well_formed_push_all st _ hst fun i hi => Or.inl (cli_items_source _ i hi)⟩
  · intro fs st file_path hst
    refine ⟨_, load_env_file_eq fs st file_path, well_formed_push_all st _ hst ?_⟩
    intro i hi
    unfold file_items at hi
    cases hfs : fs file_path with
    | none => simp [hfs] at hi
    | some c => rw [hfs] at hi; exact Or.inr (line_items_source _ i hi)
  · intro fs argc argv env_paths
    have hwf : (Store.push_all [] (arg_items argc argv ++ path_items fs env_paths)).well_formed
        = true :=
      well_formed_push_all [] _ rfl fun i hi => by
        rcases List.mem_append.mp hi with h | h
        · exact Or.inl (arg_items_source argc argv i h)
        · exact Or.inr (path_items_source fs env_paths i h)
    refine ⟨_, construct_eq fs argc argv env_paths, hwf, ?_⟩
    intro key es hf
    obtain ⟨hne, htag⟩ := well_formed_find _ hwf key es hf
    refine ⟨hne, fun e he => ?_⟩
    rcases htag e he with h | h
    · exact ⟨by simp [h], by simp [h], Or.inl h⟩
    · exact ⟨by simp [h], by simp [h], Or.inr h⟩

/-- Witness of C17: one `process_env_line` step on a store that satisfies the
invariant. -/
theorem store_invariant_witness :
    ∃ st1, process_env_line [("a".toList, [⟨"1".toList, .env_file⟩])] "a=2".toList .cli_args
        = some st1 ∧ st1.well_formed = true :=
  store_invariant.2.1 [("a".toList, [⟨"1".toList, .env_file⟩])] "a=2".toList (by decide)

/-! ## Presence and value agree -/

theorem built_well_formed (fs : FileSystem) (argc : Int) (argv : Option (List Str))
    (env_paths : List Str) :
    (Store.push_all [] (arg_items argc argv ++ path_items fs env_paths)).well_formed = true :=
  well_formed_push_all [] _ rfl fun i hi => by
    rcases List.mem_append.mp hi with h | h
    · exact Or.inl (arg_items_source argc argv i h)
    · exact Or.inr (path_items_source fs env_paths i h)

theorem first_value_some_of_has_source (es : List env_entry) (src : variable_source)
    (h : has_source es src = true) : ∃ v, first_value es src = some v := by
  induction es with
  | nil => simp [has_source] at h
  | cons e rest ih =>
    by_cases hs : e.source = src
    · exact ⟨e.value, by simp [first_value, hs]⟩
    · simp only [has_source, hs, if_false] at h
      obtain ⟨v, hv⟩ := ih h
      exact ⟨v, by simp [first_value, hs, hv]⟩

theorem has_source_cli_or_file (es : List env_entry) (hne : es ≠ [])
    (htag : ∀ e ∈ es, e.source = .cli_args ∨ e.source = .env_file) :
    has_source es .cli_args = true ∨ has_source es .env_file = true := by
  cases es with
  | nil => exact absurd rfl hne
  | cons e rest =>
    rcases htag e (List.mem_cons_self _ _) with h | h
    · left; simp [has_source, h]
    · right; simp [has_source, h]

theorem get_value_of_stored (st : Store) (env : SysEnv) (key D v : Str)
    (src : variable_source) (h : get_stored st key src = some v) :
    get_value st env key D src = some v := by
  simp [get_value, h]

theorem get_value_of_not_stored (st : Store) (env : SysEnv) (key D : Str)
    (src : variable_source) (h : get_stored st key src = none) :
    get_value st env key D src =
      if src = .any ∨ src = .system_env then
        match env key with
        | some w => some (spec_unquote (spec_trim w))
        | none => some D
      else some D := by
  simp only [get_value, h, get_system_env]
  by_cases hs : src = .any ∨ src = .system_env
  · simp only [hs, if_true]
    cases env key with
    | none => rfl
    | some w => exact remove_quotes_eq w
  · simp [hs]

/-- Presence and value agree on every store satisfying the invariant. -/
theorem agree_of_well_formed (st : Store) (hwf : st.well_formed = true)
    (env : SysEnv) (key : Str) (src : variable_source) :
    (has_variable st env key src = false → ∀ D, get_value st env key D src = some D) ∧
    (has_variable st env key src = true → ∃ v, ∀ D, get_value st env key D src = some v) := by
  cases hf : st.find key with
  | none =>
    have hstored : get_stored st key src = none := by simp [get_stored, hf]
    have hhas : has_variable st env key src =
        if src = .any ∨ src = .system_env then (env key).isSome else false := by
      simp [has_variable, hf, get_system_env]
    rw [hhas]
    constructor
    · intro h D
      rw [get_value_of_not_stored st env key D src hstored]
      by_cases hs : src = .any ∨ src = .system_env
      · simp only [hs, if_true] at h ⊢
        cases he : env key with
        | none => rfl
        | some w => simp [he] at h
      · simp [hs]
    · intro h
      by_cases hs : src = .any ∨ src = .system_env
      · simp only [hs, if_true] at h
        cases he : env key with
        | none => simp [he] at h
        | some w =>
          refine ⟨spec_unquote (spec_trim w), fun D => ?_⟩
          rw [get_value_of_not_stored st env key D src hstored]
          simp [hs, he]
      · simp [hs] at h
  | some es =>
    obtain ⟨hne, htag⟩ := well_formed_find st hwf key es hf
    cases src with
    | any =>
      have hhas : has_variable st env key .any = true := by simp [has_variable, hf]
      refine ⟨fun h => absurd (hhas.symm.trans h) (by decide), fun _ => ?_⟩
      rcases has_source_cli_or_file es hne htag with h | h
      · obtain ⟨v, hv⟩ := first_value_some_of_has_source es _ h
        exact ⟨v, fun D => get_value_of_stored st env key D v _ (by simp [get_stored, hf, hv])⟩
      · obtain ⟨v, hv⟩ := first_value_some_of_has_source es _ h
        cases hc : first_value es .cli_args with
        | some w =>
          exact ⟨w, fun D => get_value_of_stored st env key D w _ (by simp [get_stored, hf, hc])⟩
        | none =>
          exact ⟨v, fun D =>
            get_value_of_stored st env key D v _ (by simp [get_stored, hf, hc, hv])⟩
    | cli_args =>
      have hhas : has_variable st env key .cli_args = has_source es .cli_args := by
        simp [has_variable, hf]
      rw [hhas]
      constructor
      · intro h D
        have hstored : get_stored st key .cli_args = none := by
          simp [get_stored, hf, first_value_none_of_has_source es _ h]
        rw [get_value_of_not_stored st env key D _ hstored]; simp
      · intro h
        obtain ⟨v, hv⟩ := first_value_some_of_has_source es _ h
        exact ⟨v, fun D => get_value_of_stored st env key D v _ (by simp [get_stored, hf, hv])⟩
    | env_file =>
      have hhas : has_variable st env key .env_file = has_source es .env_file := by
        simp [has_variable, hf]
      rw [hhas]
      constructor
      · intro h D
        have hstored : get_stored st key .env_file = none := by
          simp [get_stored, hf, first_value_none_of_has_source es _ h]
        rw [get_value_of_not_stored st env key D _ hstored]; simp
      · intro h
        obtain ⟨v, hv⟩ := first_value_some_of_has_source es _ h
        exact ⟨v, fun D => get_value_of_stored st env key D v _ (by simp [get_stored, hf, hv])⟩
    | system_env =>
      have hno : has_source es .system_env = false :=
        has_source_false_of_forall es _ fun e he => by
          rcases htag e he with h | h <;> simp [h]
      have hstored : get_stored st key .system_env = none := by
        simp [get_stored, hf, first_value_none_of_has_source es _ hno]
      have hhas : has_variable st env key .system_env = (env key).isSome := by
        simp [has_variable, hf, hno, get_system_env]
      rw [hhas]
      constructor
      · intro h D
        rw [get_value_of_not_stored st env key D _ hstored]
        cases he : env key with
        | none => simp
        | some w => simp [he] at h
      · intro h
        cases he : env key with
        | none => simp [he] at h
        | some w =>
          refine ⟨spec_unquote (spec_trim w), fun D => ?_⟩
          rw [get_value_of_not_stored st env key D _ hstored]
          simp [he]

/-- C18: on every store the constructor builds, for every environment, key and
source filter (`any`, `cli_args`, `env_file`, `system_env`): when `has_variable`
is false, `get_value` returns the default, for every default; when `has_variable`
is true, `get_value` returns one value that does not depend on the default. -/
theorem has_get_agree (fs : FileSystem) (argc : Int) (argv : Option (List Str))
    (env_paths : List Str) :
    ∃ st, construct fs argc argv env_paths = some st ∧
      ∀ (env : SysEnv) (key : Str) (src : variable_source),
        (has_variable st env key src = false → ∀ D, get_value st env key D src = some D) ∧
        (has_variable st env key src = true →
          (∃ v, ∀ D, get_value st env key D src = some v) ∧
          ∀ D1 D2, get_value st env key D1 src = get_value st env key D2 src) := by
  refine ⟨_, construct_eq fs argc argv env_paths, ?_⟩
  intro env key src
  obtain ⟨h1, h2⟩ := agree_of_well_formed _
    (built_well_formed fs argc argv env_paths) env key src
  refine ⟨h1, fun h => ⟨h2 h, fun D1 D2 => ?_⟩⟩
  obtain ⟨v, hv⟩ := h2 h
  rw [hv D1, hv D2]

/-- Witness of C18: arguments `prog --a=1`, a file `.env` with the line `b=2`. -/
theorem has_get_agree_witness :
    ∃ st, construct (fun p => if p = ".env".toList then some "b=2".toList else none) 2
        (some ["prog".toList, "--a=1".toList]) [".env".toList] = some st ∧
      ∀ (env : SysEnv) (key : Str) (src : variable_source),
        (has_variable st env key src = false → ∀ D, get_value st env key D src = some D) ∧
        (has_variable st env key src = true →
          (∃ v, ∀ D, get_value st env key D src = some v) ∧
          ∀ D1 D2, get_value st env key D1 src = get_value st env key D2 src) :=
  has_get_agree (fun p => if p = ".env".toList then some "b=2".toList else none) 2
    (some ["prog".toList, "--a=1".toList]) [".env".toList]

/-- C19: on every store the constructor builds, for every environment and key,
`has_variable` with source `any` is the disjunction of `has_variable` with
sources `cli_args`, `env_file` and `system_env`. -/
theorem has_any_decomposes (fs : FileSystem) (argc : Int) (argv : Option (List Str))
    (env_paths : List Str) :
    ∃ st, construct fs argc argv env_paths = some st ∧
      ∀ (env : SysEnv) (key : Str),
        has_variable st env key .any =
          (has_variable st env key .cli_args || has_variable st env key .env_file ||
            has_variable st env key .system_env) := by
  refine ⟨_, construct_eq fs argc argv env_paths, ?_⟩
  intro env key
  have hwf := built_well_formed fs argc argv env_paths
  cases hf : (Store.push_all [] (arg_items argc argv ++ path_items fs env_paths)).find key with
  | none => simp [has_variable, hf]
  | some es =>
    obtain ⟨hne, htag⟩ := well_formed_find _ hwf key es hf
    rcases has_source_cli_or_file es hne htag with h | h
    · simp [has_variable, hf, h]
    · simp [has_variable, hf, h]

/-! ## No operation throws -/

theorem first_le_last (text : Str) (start : Nat)
    (h : find_first_not_of text whitespace = some start) :
    ∃ e, find_last_not_of text whitespace = some e ∧ start ≤ e ∧ e < text.length := by
  induction text generalizing start with
  | nil => simp [find_first_not_of] at h
  | cons c cs ih =>
    by_cases hc : c ∈ whitespace
    · simp only [find_first_not_of, hc, if_true, Option.map_eq_some'] at h
      obtain ⟨s, hs, rfl⟩ := h
      obtain ⟨e, he, hle, hlt⟩ := ih s hs
      exact ⟨e + 1, by simp [find_last_not_of, he], by omega, by simp only [List.length_cons]; omega⟩
    · simp only [find_first_not_of, hc, if_false, Option.some.injEq] at h
      subst h
      cases hl : find_last_not_of cs whitespace with
      | none => exact ⟨0, by simp [find_last_not_of, hl, hc], le_refl _, by simp⟩
      | some i =>
        have hi := (find_last_not_of_take cs i hl).2
        exact ⟨i + 1, by simp [find_last_not_of, hl], by omega,
          by simp only [List.length_cons]; omega⟩

/-- C20: the positions passed to `substr` are in range and nothing throws. In
`clean_whitespace`, when `start` is found then `end` is found too, with
`start ≤ end < length`; in `remove_quotes` the call `substr(1, length - 2)` is
made under `length ≥ 2`; in `process_env_line` the position of `=` satisfies
`pos + 1 ≤ length`; in `load_cli_arguments` `substr(0, 2)` always succeeds and
`substr(2)` is reached only when the argument has at least two characters; in
`get_executable_dir` the start is 0. Hence every operation returns a result on
every input: `clean_whitespace`, `remove_quotes`, `process_env_line`,
`load_cli_arguments`, `load_env_file`, `get_executable_dir`, the constructor and
`get_value`. -/
theorem no_operation_throws :
    (∀ text : Str,
      match find_first_not_of text whitespace, find_last_not_of text whitespace with
      | some start, some e => start ≤ e ∧ e < text.length
      | some _, none => False
      | none, _ => True) ∧
    (∀ text : Str, ∃ r, clean_whitespace text = some r) ∧
    (∀ cleaned : Str, 2 ≤ cleaned.length →
      ∃ r, substr cleaned 1 (cleaned.length - 2) = some r) ∧
    (∀ text : Str, ∃ r, remove_quotes text = some r) ∧
    (∀ line : Str,
      match find line '=' with
      | some pos => pos + 1 ≤ line.length
      | none => True) ∧
    (∀ (st : Store) (line : Str) (src : variable_source),
      ∃ st1, process_env_line st line src = some st1) ∧
    (∀ arg : Str, substr arg 0 2 = some (arg.take 2) ∧
      (arg.take 2 = ['-', '-'] → ∃ r, substr_from arg 2 = some r)) ∧
    (∀ (st : Store) (argc : Int) (argv : List Str),
      ∃ st1, load_cli_arguments st argc argv = some st1) ∧
    (∀ (fs : FileSystem) (st : Store) (file_path : Str),
      ∃ st1, load_env_file fs st file_path = some st1) ∧
    (∀ exe_path relative : Str, ∃ r, get_executable_dir exe_path relative = some r) ∧
    (∀ (fs : FileSystem) (argc : Int) (argv : Option (List Str)) (env_paths : List Str),
      ∃ st, construct fs argc argv env_paths = some st) ∧
    (∀ (st : Store) (env : SysEnv) (key D : Str) (src : variable_source),
      ∃ r, get_value st env key D src = some r) := by
  refine ⟨?_, ?_, ?_, ?_, ?_, ?_, ?_, ?_, ?_, ?_, ?_, ?_⟩
  · intro text
    cases hs : find_first_not_of text whitespace with
    | none => simp
    | some start =>
      obtain ⟨e, he, hle, hlt⟩ := first_le_last text start hs
      simp [he, hle, hlt]
  · exact fun text => ⟨_, clean_whitespace_eq text⟩
  · intro cleaned h
    have : ¬ 1 > cleaned.length := by omega
    exact ⟨(cleaned.drop 1).take (cleaned.length - 2), by simp only [substr, this, if_false]⟩
  · exact fun text => ⟨_, remove_quotes_eq text⟩
  · intro line
    cases hf : find line '=' with
    | none => simp
    | some pos =>
      have := find_some_lt line '=' pos hf
      simp only; omega
  · exact fun st line src => ⟨_, process_env_line_eq st line src⟩
  · intro arg
    refine ⟨by simp [substr], fun h => ?_⟩
    have hlen : ¬ 2 > arg.length := by
      intro hl
      have := congrArg List.length h
      simp at this
      omega
    exact ⟨arg.drop 2, by simp only [substr_from, hlen, if_false]⟩
  · exact fun st argc argv => ⟨_, load_cli_arguments_loop_eq st _⟩
  · exact fun fs st file_path => ⟨_, load_env_file_eq fs st file_path⟩
  · intro exe_path relative
    unfold get_executable_dir
    cases find_last_of exe_path ['/', '\\'] with
    | none => exact ⟨_, rfl⟩
    | some last_sep => exact ⟨exe_path.take (last_sep + 1) ++ relative, by simp [substr]⟩
  · exact fun fs argc argv env_paths => ⟨_, construct_eq fs argc argv env_paths⟩
  · intro st env key D src
    cases hg : get_stored st key src with
    | some v => exact ⟨v, get_value_of_stored st env key D v src hg⟩
    | none =>
      rw [get_value_of_not_stored st env key D src hg]
      by_cases hs : src = .any ∨ src = .system_env
      · cases he : env key with
        | none => exact ⟨D, by simp [hs]⟩
        | some w => exact ⟨spec_unquote (spec_trim w), by simp [hs]⟩
      · exact ⟨D, by simp [hs]⟩

/-- Witness of C20: the two-character argument `--` reaches `substr(2)` with
start 2 = length, and a text of two quote characters reaches `substr(1, 0)`. -/
theorem no_operation_throws_witness :
    (∃ r, substr_from "--".toList 2 = some r) ∧
    (∃ r, substr [dquote, dquote] 1 ([dquote, dquote].length - 2) = some r) :=
  ⟨(no_operation_throws.2.2.2.2.2.2.1 "--".toList).2 (by decide),
   no_operation_throws.2.2.1 [dquote, dquote] (by decide)⟩

end env_loader
